import Mathlib

/-!
Verification of the ETS fiber assigner kernel (`src/ets_demo.cc`).

The C++ code is shallowly embedded over an arbitrary linear ordered field `K`
(instantiated at `ℚ` for concrete evaluations and at `ℝ` for the parts of the
geometry that use `sqrt`).  C++ `double` arithmetic is modelled as exact field
arithmetic; `int(x)` casts are modelled by truncation toward zero; `vector`
indexing is modelled with `getD`/total functions; `planck_assert` failures are
modelled by `Option.none`.
-/

set_option maxHeartbeats 1000000
set_option maxRecDepth 8000

namespace ETS

variable {K : Type} [LinearOrderedField K] [FloorRing K]

/-- Truncation of a field element toward zero, the behaviour of a C++
`int(double)` cast. -/
def ktrunc (x : K) : ℤ := if 0 ≤ x then ⌊x⌋ else -⌊-x⌋

/-- Embeds `class vec2`: a position in the 2D focal plane. -/
structure vec2 (K : Type) where
  x : K
  y : K
deriving DecidableEq

instance : Inhabited (vec2 K) := ⟨⟨0, 0⟩⟩

/-- Embeds `vec2::dsq`: squared Euclidean distance. -/
def vec2.dsq (a b : vec2 K) : K := (a.x - b.x) * (a.x - b.x) + (a.y - b.y) * (a.y - b.y)

/-- Function override at one point, modelling a single `v[i] = x` store. -/
def upd {α : Type} (f : ℕ → α) (i : ℕ) (v : α) : ℕ → α := fun j => if j = i then v else f j

/-- Embeds the data members of `class fpraster` (the uniform-grid 2D spatial
index).  The cell contents (`data` in the C++ class) are recovered by
`fpraster.data` below. -/
structure fpraster (K : Type) where
  x0 : K
  y0 : K
  x1 : K
  y1 : K
  idx : K
  idy : K
  nx : ℕ
  ny : ℕ
  loc : List (vec2 K)

/-- Embeds `fpraster::indexx`: clamped cell index of an x-coordinate. -/
def fpraster.indexx (P : fpraster K) (x : K) : ℕ :=
  (max 0 (min ((P.nx : ℤ) - 1) (ktrunc ((x - P.x0) * P.idx)))).toNat

/-- Embeds `fpraster::indexy`. -/
def fpraster.indexy (P : fpraster K) (y : K) : ℕ :=
  (max 0 (min ((P.ny : ℤ) - 1) (ktrunc ((y - P.y0) * P.idy)))).toNat

/-- Embeds `fpraster::index`: flat cell index of a position. -/
def fpraster.index (P : fpraster K) (pos : vec2 K) : ℕ :=
  P.indexx pos.x + P.nx * P.indexy pos.y

/-- Embeds the cell buckets `fpraster::data`: bucket `c` holds, in insertion
order (= increasing index, as the constructor pushes `i = 0,1,...`), the
indices of the points whose cell is `c`. -/
def fpraster.data (P : fpraster K) (c : ℕ) : List ℕ :=
  (List.range P.loc.length).filter (fun k => P.index (P.loc.getD k default) = c)

/-- Embeds the `fpraster` constructor: bounding box of the input points,
degenerate axes padded by `1e-9`, inverse cell sizes. -/
def mkFpraster (loc : List (vec2 K)) (nx ny : ℕ) : fpraster K :=
  let h := loc.headD default
  let x0 := (loc.map vec2.x).foldl min h.x
  let xm := (loc.map vec2.x).foldl max h.x
  let y0 := (loc.map vec2.y).foldl min h.y
  let ym := (loc.map vec2.y).foldl max h.y
  let x1 := if x0 = xm then xm + 1/1000000000 else xm
  let y1 := if y0 = ym then ym + 1/1000000000 else ym
  { x0 := x0, y0 := y0, x1 := x1, y1 := y1,
    idx := nx / (x1 - x0), idy := ny / (y1 - y0),
    nx := nx, ny := ny, loc := loc }

/-- Embeds `fpraster::query`: indices of all points within distance `rad` of
`center`, collected cell-row-major with a bounding-box early exit. -/
def fpraster.query (P : fpraster K) (center : vec2 K) (rad : K) : List ℕ :=
  if center.x < P.x0 - rad ∨ P.x1 + rad < center.x ∨
     center.y < P.y0 - rad ∨ P.y1 + rad < center.y then []
  else
    let rsq := rad * rad
    let i0 := P.indexx (center.x - rad)
    let i1 := P.indexx (center.x + rad)
    let j0 := P.indexy (center.y - rad)
    let j1 := P.indexy (center.y + rad)
    (List.range' j0 (j1 + 1 - j0)).flatMap (fun j =>
      (List.range' i0 (i1 + 1 - i0)).flatMap (fun i =>
        (P.data (i + P.nx * j)).filter
          (fun k => center.dsq (P.loc.getD k default) ≤ rsq)))

/-- Embeds `fpraster::anyIn`: Boolean short-circuit version of `query`. -/
def fpraster.anyIn (P : fpraster K) (center : vec2 K) (rad : K) : Bool :=
  if center.x < P.x0 - rad ∨ P.x1 + rad < center.x ∨
     center.y < P.y0 - rad ∨ P.y1 + rad < center.y then false
  else
    let rsq := rad * rad
    let i0 := P.indexx (center.x - rad)
    let i1 := P.indexx (center.x + rad)
    let j0 := P.indexy (center.y - rad)
    let j1 := P.indexy (center.y + rad)
    (List.range' j0 (j1 + 1 - j0)).any (fun j =>
      (List.range' i0 (i1 + 1 - i0)).any (fun i =>
        (P.data (i + P.nx * j)).any
          (fun k => decide (center.dsq (P.loc.getD k default) ≤ rsq))))

/-! ### Priority queue (`template class pqueue`), instantiated as in the code
at `T = pq_entry` with the comparator `pq_entry::operator<`. -/

/-- Embeds `struct pq_entry`. -/
structure pq_entry (K : Type) where
  prox : K
  pri : ℤ
deriving DecidableEq

instance : Inhabited (pq_entry K) := ⟨⟨0, 0⟩⟩

/-- Embeds `pq_entry::operator<`: `a < b` iff `a.pri > b.pri`, ties broken by
`a.prox < b.prox`. -/
def pqLt (a b : pq_entry K) : Prop :=
  if a.pri = b.pri then a.prox < b.prox else b.pri < a.pri

instance (a b : pq_entry K) : Decidable (pqLt a b) := by unfold pqLt; infer_instance

/-- Embeds `pqueue::node_t` (a priority plus the heap slot currently holding
the element). -/
structure pqnode (K : Type) where
  pri : pq_entry K
  pos : ℕ

instance : Inhabited (pqnode K) := ⟨⟨default, 0⟩⟩

/-- Embeds the data members of `class pqueue`: `nodes` by element id, the heap
array `idx` (slots `1..n`; slot `0` unused), and the element count. -/
structure pqueue (K : Type) where
  nodes : ℕ → pqnode K
  idx : ℕ → ℕ
  n : ℕ

/-- Embeds the loop of `pqueue::sift_up`: shift ancestors down while they
compare less than the moving element, then place the moving element. -/
def pqueue.siftUpAux (q : pqueue K) (moving : ℕ) (mpri : pq_entry K) (i : ℕ) : pqueue K :=
  if h : 1 < i ∧ pqLt (q.nodes (q.idx (i / 2))).pri mpri then
    let j := q.idx (i / 2)
    pqueue.siftUpAux
      { q with idx := upd q.idx i j, nodes := upd q.nodes j ⟨(q.nodes j).pri, i⟩ }
      moving mpri (i / 2)
  else
    { q with idx := upd q.idx i moving,
             nodes := upd q.nodes moving ⟨(q.nodes moving).pri, i⟩ }
termination_by i
decreasing_by exact Nat.div_lt_self (by omega) (by omega)

/-- Embeds `pqueue::sift_up`. -/
def pqueue.sift_up (q : pqueue K) (i : ℕ) : pqueue K :=
  q.siftUpAux (q.idx i) (q.nodes (q.idx i)).pri i

/-- Embeds `pqueue::maxchild`: the larger child slot of `i`, or `0` if `i` has
no children (`idx.size()` is `n + 1`). -/
def pqueue.maxchild (q : pqueue K) (i : ℕ) : ℕ :=
  let c := 2 * i
  if q.n + 1 ≤ c then 0
  else if c + 1 < q.n + 1 ∧ pqLt (q.nodes (q.idx c)).pri (q.nodes (q.idx (c + 1))).pri
  then c + 1 else c

/-- Embeds the loop of `pqueue::sift_down`. -/
def pqueue.siftDownAux (q : pqueue K) (moving : ℕ) (mpri : pq_entry K) (i : ℕ) : pqueue K :=
  if h : q.maxchild i ≠ 0 ∧ pqLt mpri (q.nodes (q.idx (q.maxchild i))).pri then
    let j := q.idx (q.maxchild i)
    pqueue.siftDownAux
      { q with idx := upd q.idx i j, nodes := upd q.nodes j ⟨(q.nodes j).pri, i⟩ }
      moving mpri (q.maxchild i)
  else
    { q with idx := upd q.idx i moving,
             nodes := upd q.nodes moving ⟨(q.nodes moving).pri, i⟩ }
termination_by q.n + 1 - i
decreasing_by
  have hc : q.maxchild i ≠ 0 := h.1
  simp only [pqueue.maxchild] at hc ⊢
  by_cases h1 : q.n + 1 ≤ 2 * i
  · rw [if_pos h1] at hc
    exact absurd rfl hc
  · rw [if_neg h1] at hc ⊢
    by_cases h2 : 2 * i + 1 < q.n + 1 ∧
        pqLt (q.nodes (q.idx (2 * i))).pri (q.nodes (q.idx (2 * i + 1))).pri
    · rw [if_pos h2] at hc ⊢
      omega
    · rw [if_neg h2] at hc ⊢
      omega

/-- Embeds `pqueue::sift_down`. -/
def pqueue.sift_down (q : pqueue K) (i : ℕ) : pqueue K :=
  q.siftDownAux (q.idx i) (q.nodes (q.idx i)).pri i

/-- Embeds `pqueue::heapify`: sift down the slots `startnode, ..., 1` where
`startnode = idx.size() >> 1 = (n+1)/2`. -/
def pqueue.heapify (q : pqueue K) : pqueue K :=
  (List.range ((q.n + 1) / 2)).foldr (fun k q1 => q1.sift_down (k + 1)) q

/-- Embeds the `pqueue(const vector<T>&)` constructor: element `m` starts at
slot `m + 1`, then `heapify` runs. -/
def pqueue.build (pri : List (pq_entry K)) : pqueue K :=
  pqueue.heapify
    { nodes := fun m => ⟨pri.getD m default, m + 1⟩,
      idx := fun k => k - 1,
      n := pri.length }

/-- Embeds `pqueue::set_priority`. -/
def pqueue.set_priority (q : pqueue K) (new_pri : pq_entry K) (pos : ℕ) : pqueue K :=
  let old_pri := (q.nodes pos).pri
  let q1 : pqueue K := { q with nodes := upd q.nodes pos ⟨new_pri, (q.nodes pos).pos⟩ }
  let posn := (q.nodes pos).pos
  if pqLt old_pri new_pri then q1.sift_up posn else q1.sift_down posn

/-- Embeds `pqueue::priority`. -/
def pqueue.priority (q : pqueue K) (pos : ℕ) : pq_entry K := (q.nodes pos).pri

/-- Embeds `pqueue::top_priority`. -/
def pqueue.top_priority (q : pqueue K) : pq_entry K := (q.nodes (q.idx 1)).pri

/-- Embeds `pqueue::top`. -/
def pqueue.top (q : pqueue K) : ℕ := q.idx 1

/-! ### Targets, constants and the generic parts of the assignment kernel -/

/-- Embeds `class Target`. -/
structure Target (K : Type) where
  pos : vec2 K
  time : K
  pri : ℤ
  id : ℤ
deriving DecidableEq

instance : Inhabited (Target K) := ⟨⟨default, 0, 0, 0⟩⟩

/-- Embeds `constexpr size_t nfiber = 3*57*14`. -/
def nfiber : ℕ := 3 * 57 * 14

/-- Embeds `constexpr double rmax = 4.75`. -/
def rmax : K := 19 / 4

/-- Embeds `constexpr double r_kernel = 4.75`. -/
def r_kernel : K := 19 / 4

/-- Embeds `constexpr double dotdist = 1.375`. -/
def dotdist : K := 11 / 8

/-- Embeds `constexpr double colldist = 2`. -/
def colldist : K := 2

/-- Embeds `rotate(vec2 &pos, double sa, double ca)`: in-plane rotation by a
precomputed sine `sa` and cosine `ca`. -/
def rotate (pos : vec2 K) (sa ca : K) : vec2 K :=
  ⟨ca * pos.x - sa * pos.y, sa * pos.x + ca * pos.y⟩

/-- Embeds the per-target core of `targetToPFI`, starting from the
tangent-plane pair `pnew` (the two `atan2` angles in degrees): the source calls
`rotate(pnew, cpsi, spsi)` — i.e. it passes `cos psi` in the `sa` slot and
`sin psi` in the `ca` slot — and then applies the radial distortion
polynomial with `a0=0, a1=-3.2e2, a2=-1.37e1, a3=-7.45e0`. -/
def pfiMap (cpsi spsi : K) (pnew : vec2 K) : vec2 K :=
  let a0 : K := 0
  let a1 : K := -320
  let a2 : K := -137 / 10
  let a3 : K := -149 / 20
  let p := rotate pnew cpsi spsi
  let rsq := p.x * p.x + p.y * p.y
  ⟨(a3 * rsq * rsq + a2 * rsq + a1) * p.x + a0,
   (-a3 * rsq * rsq - a2 * rsq - a1) * p.y + a0⟩

/-- Modelled from the spec's words for comparison with `pfiMap` (claim C2):
rotate `(u, v)` by the position angle `psi`, i.e. map it to
`(cos psi * u - sin psi * v, sin psi * u + cos psi * v)`, then apply the same
distortion polynomial. -/
def pfiMapSpec (cpsi spsi : K) (pnew : vec2 K) : vec2 K :=
  let a0 : K := 0
  let a1 : K := -320
  let a2 : K := -137 / 10
  let a3 : K := -149 / 20
  let p : vec2 K := ⟨cpsi * pnew.x - spsi * pnew.y, spsi * pnew.x + cpsi * pnew.y⟩
  let rsq := p.x * p.x + p.y * p.y
  ⟨(a3 * rsq * rsq + a2 * rsq + a1) * p.x + a0,
   (-a3 * rsq * rsq - a2 * rsq - a1) * p.y + a0⟩

/-- Embeds `stripout`: remove a value from a neighbour list, asserting that
exactly one occurrence was present (`planck_assert` failure, and the undefined
`erase(end())` of the zero-occurrence case, are modelled by `none`; the
function's documented contract, "assert that exactly one value was removed",
is the `count = 1` guard). -/
def stripout (v : List ℕ) (val : ℕ) : Option (List ℕ) :=
  if v.count val = 1 then some (v.filter (fun x => x ≠ val)) else none

/-- Embeds `maxpri_in_fiber`, including the comparison of
`tgt[f2t[fiber][idx]].pri` against the running `maxpri` on both sides of the
update (the loop variable `j` is never read in the condition).  The fold state
is `(idx, maxpri)`. -/
def maxpri_in_fiber (fiber : ℕ) (tgt : List (Target K)) (f2t : ℕ → List ℕ) : ℕ :=
  let l := f2t fiber
  let st := (List.range' 1 (l.length - 1)).foldl
    (fun (st : ℕ × ℤ) j =>
      if (tgt.getD (l.getD st.1 0) default).pri < st.2 then
        (j, (tgt.getD (l.getD st.1 0) default).pri)
      else st)
    (0, (tgt.getD (l.getD 0 0) default).pri)
  l.getD st.1 0

/-- Embeds `kernelfunc`: the parabola kernel `max(0, r_kernel^2 - rsq)`. -/
def kernelfunc (rsq : K) : K := max 0 (r_kernel * r_kernel - rsq)

/-- Embeds `strip`: drop or decrement the observed targets after an exposure
of duration `time`, keeping a target iff its remaining time exceeds
`time + 1e-7`. -/
def strip (tgt : List (Target K)) (remove : List ℕ) (time : K) : List (Target K) :=
  (List.range tgt.length).foldl
    (fun t2 i =>
      if i ∉ remove then t2 ++ [tgt.getD i default]
      else if time + 1 / 10000000 < (tgt.getD i default).time then
        t2 ++ [{ tgt.getD i default with time := (tgt.getD i default).time - time }]
      else t2)
    []

/-- Embeds the exposure-duration computation in `subprocess`:
`time = tgt1[tidmax[0]].time`, then lower it over all entries of `tidmax`. -/
def expTime (tgt : List (Target K)) (tids : List ℕ) : K :=
  tids.foldl
    (fun acc i => if (tgt.getD i default).time < acc then (tgt.getD i default).time else acc)
    (tgt.getD (tids.headD 0) default).time

/-! ### Fiber geometry (uses `sqrt(0.75)`, hence over `ℝ`) -/

/-- Embeds `const double vspace = sqrt(0.75)`. -/
noncomputable def vspace : ℝ := Real.sqrt 0.75

/-- Embeds `id2fiberpos`: central fiber position in PFI coordinates (`cobra & 1`
is written `cobra % 2`, identical on naturals). -/
noncomputable def id2fiberpos (id : ℕ) : vec2 ℝ :=
  let field := id / (57 * 14)
  let id1 := id - field * 57 * 14
  let module := id1 / 57
  let cobra := id1 - module * 57
  let res : vec2 ℝ :=
    ⟨-vspace * (1 + 2 * (module : ℝ) + ((cobra % 2 : ℕ) : ℝ)),
     1 / 2 + (module : ℝ) - 1 / 2 * (cobra : ℝ)⟩
  let res := if field = 1 then rotate res (-vspace) (-(1 / 2)) else res
  let res := if field = 2 then rotate res vspace (-(1 / 2)) else res
  ⟨res.x * 8, res.y * 8⟩

/-- Embeds `id2dotpos`: the dot center, offset `+1.19` in y. -/
noncomputable def id2dotpos (id : ℕ) : vec2 ℝ :=
  ⟨(id2fiberpos id).x, (id2fiberpos id).y + 119 / 100⟩

/-- Embeds `tgt2raster`. -/
def tgt2raster (tgt : List (Target K)) (nx ny : ℕ) : fpraster K :=
  mkFpraster (tgt.map Target.pos) nx ny

/-! ### Fiber/target mappings and `cleanup` -/

/-- The pair of mappings `f2t` / `t2f` built by `calcMappings` and mutated by
`cleanup` (C++ `vector<vector<size_t>>`, modelled as total functions that are
`[]` outside the index range). -/
structure MapState where
  f2t : ℕ → List ℕ
  t2f : ℕ → List ℕ

/-- Embeds `calcMappings`: `f2t[i]` is the query at the fiber center with
radius `rmax`, filtered by the dot-blocking condition
`dp.dsq(tgt[j].pos) >= dotdist*dotdist`; `t2f` is the inversion built by
pushing `i` once per occurrence of `t` in `f2t[i]`, `i = 0..nfiber-1`. -/
noncomputable def calcMappings (tgt : List (Target ℝ)) (raster : fpraster ℝ) : MapState :=
  let f2t : ℕ → List ℕ := fun i =>
    if i < nfiber then
      (raster.query (id2fiberpos i) rmax).filter
        (fun j => dotdist * dotdist ≤ (id2dotpos i).dsq (tgt.getD j default).pos)
    else []
  let t2f : ℕ → List ℕ := fun t =>
    (List.range nfiber).flatMap (fun i => List.replicate ((f2t i).count t) i)
  ⟨f2t, t2f⟩

/-- Embeds `cleanup`: remove all references to the committed fiber, then all
targets within `colldist` of the committed target.  Any `stripout` assertion
failure propagates as `none`. -/
def cleanup (tgt : List (Target K)) (raster : fpraster K) (s : MapState)
    (fiber itgt : ℕ) : Option MapState := do
  let t2f1 ← (s.f2t fiber).foldlM
    (fun t2fA curtgt => (stripout (t2fA curtgt) fiber).map (fun l => upd t2fA curtgt l))
    s.t2f
  let f2t1 := upd s.f2t fiber []
  let tmp := raster.query (tgt.getD itgt default).pos colldist
  let st ← tmp.foldlM
    (fun (p : (ℕ → List ℕ) × (ℕ → List ℕ)) i => do
      let f2tN ← (p.2 i).foldlM
        (fun f2tA j => (stripout (f2tA j) i).map (fun l => upd f2tA j l)) p.1
      pure (f2tN, upd p.2 i []))
    (f2t1, t2f1)
  pure ⟨st.1, st.2⟩

/-! ### The three assignment strategies -/

/-- Embeds `NaiveAssigner::assign` as a fold over the fibers (the output lists
are accumulated by `push_back`). -/
noncomputable def naiveAssign (tgt : List (Target ℝ)) : Option (List ℕ × List ℕ) :=
  let raster := tgt2raster tgt 100 100
  let s0 := calcMappings tgt raster
  ((List.range nfiber).foldlM
    (fun (st : MapState × List ℕ × List ℕ) fiber =>
      if st.1.f2t fiber = [] then some st
      else
        let itgt := maxpri_in_fiber fiber tgt st.1.f2t
        (cleanup tgt raster st.1 fiber itgt).map
          (fun s1 => (s1, st.2.1 ++ [itgt], st.2.2 ++ [fiber])))
    (s0, [], [])).map (fun st => st.2)

/-- Total size of the `f2t` lists; bounds the number of Draining iterations. -/
def sumF (s : MapState) : ℕ :=
  ((List.range nfiber).map (fun i => (s.f2t i).length)).sum

/-- Embeds the `maxtgt` computation of `DrainingAssigner::assign`. -/
def maxtgtOf (s : MapState) : ℕ :=
  (List.range nfiber).foldl (fun m i => max m (s.f2t i).length) 0

/-- Embeds the fiber-selection scan of `DrainingAssigner::assign`: the first
fiber with the smallest non-zero `f2t` size, or `-1` if none. -/
def drainSelect (s : MapState) (bound : ℕ) : ℤ × ℕ :=
  (List.range nfiber).foldl
    (fun p i =>
      if (s.f2t i).length < p.2 ∧ 0 < (s.f2t i).length then ((i : ℤ), (s.f2t i).length)
      else p)
    (-1, bound)

/-- Embeds the `while(true)` loop of `DrainingAssigner::assign`; the fuel is a
strict upper bound on the number of iterations (each one empties a non-empty
`f2t` list and adds nothing). -/
noncomputable def drainLoop (tgt : List (Target ℝ)) (raster : fpraster ℝ) (maxtgt : ℕ) :
    ℕ → MapState → List ℕ → List ℕ → Option (List ℕ × List ℕ)
  | 0, _, _, _ => none
  | fuel + 1, s, tid, fid =>
    let sel := drainSelect s (maxtgt + 1)
    if sel.1 = -1 then some (tid, fid)
    else
      let fiber := sel.1.toNat
      let itgt := maxpri_in_fiber fiber tgt s.f2t
      match cleanup tgt raster s fiber itgt with
      | none => none
      | some s1 => drainLoop tgt raster maxtgt fuel s1 (tid ++ [itgt]) (fid ++ [fiber])

/-- Embeds `DrainingAssigner::assign`. -/
noncomputable def drainingAssign (tgt : List (Target ℝ)) : Option (List ℕ × List ℕ) :=
  let raster := tgt2raster tgt 100 100
  let s0 := calcMappings tgt raster
  drainLoop tgt raster (maxtgtOf s0) (sumF s0 + 1) s0 [] []

/-- Embeds `calc_pri`: accumulate the proximity score of every target with a
non-empty `t2f` list over its `r_kernel` neighbourhood, take the catalog
priorities, and heapify. -/
def calc_pri (tgt : List (Target K)) (t2f : ℕ → List ℕ) (raster : fpraster K) :
    pqueue K :=
  let prox : ℕ → K := (List.range tgt.length).foldl
    (fun pr i =>
      if t2f i ≠ [] then
        (raster.query (tgt.getD i default).pos r_kernel).foldl
          (fun pr2 j =>
            let pr3 :=
              if i = j then
                upd pr2 i (pr2 i + (tgt.getD i default).time * (tgt.getD i default).time *
                  kernelfunc 0)
              else pr2
            if i < j then
              let tmp := (tgt.getD i default).time * (tgt.getD j default).time *
                kernelfunc ((tgt.getD i default).pos.dsq (tgt.getD j default).pos)
              upd (upd pr3 i (pr3 i + tmp)) j ((upd pr3 i (pr3 i + tmp)) j + tmp)
            else pr3)
          pr
      else pr)
    (fun _ => 0)
  pqueue.build ((List.range tgt.length).map (fun i => ⟨prox i, (tgt.getD i default).pri⟩))

/-- Embeds `fix_priority`: subtract the committed target's kernel contribution
from the proximity of each neighbour that is still assignable or has non-zero
proximity. -/
def fix_priority (tgt : List (Target K)) (t2f : ℕ → List ℕ) (raster : fpraster K)
    (itgt : ℕ) (pq : pqueue K) : pqueue K :=
  (raster.query (tgt.getD itgt default).pos r_kernel).foldl
    (fun q j =>
      if t2f j ≠ [] ∨ (q.priority j).prox ≠ 0 then
        q.set_priority
          ⟨(q.priority j).prox - (tgt.getD j default).time * (tgt.getD itgt default).time *
            kernelfunc ((tgt.getD itgt default).pos.dsq (tgt.getD j default).pos),
           (q.priority j).pri⟩ j
      else q)
    pq

/-- Embeds the fiber-selection scan of `NewAssigner::assign`: the entry of
`t2f[itgt]` whose fiber has the fewest observable targets (first minimum). -/
def newSelectFiber (s : MapState) (l : List ℕ) : ℕ :=
  let st := (List.range' 1 (l.length - 1)).foldl
    (fun (st : ℕ × ℕ) i =>
      if (s.f2t (l.getD i 0)).length < st.2 then (i, (s.f2t (l.getD i 0)).length) else st)
    (0, (s.f2t (l.getD 0 0)).length)
  l.getD st.1 0

/-- Embeds the `while(true)` loop of `NewAssigner::assign`; the fuel is a
strict upper bound on the number of iterations (each one either empties a
non-empty `t2f` list or retires one non-sentinel queue entry). -/
noncomputable def newLoop (tgt : List (Target ℝ)) (raster : fpraster ℝ) :
    ℕ → MapState → pqueue ℝ → List ℕ → List ℕ → Option (List ℕ × List ℕ)
  | 0, _, _, _, _ => none
  | fuel + 1, s, pq, tid, fid =>
    if pq.top_priority.pri = 2 ^ 30 then some (tid, fid)
    else
      let itgt := pq.top
      if s.t2f itgt = [] then
        newLoop tgt raster fuel s (pq.set_priority ⟨0, 2 ^ 30⟩ itgt) tid fid
      else
        let fiber := newSelectFiber s (s.t2f itgt)
        match cleanup tgt raster s fiber itgt with
        | none => none
        | some s1 =>
          newLoop tgt raster fuel s1 (fix_priority tgt s1.t2f raster itgt pq)
            (tid ++ [itgt]) (fid ++ [fiber])

/-- Total size of the `t2f` lists. -/
def sumT (len : ℕ) (s : MapState) : ℕ :=
  ((List.range len).map (fun j => (s.t2f j).length)).sum

/-- Embeds `NewAssigner::assign`. -/
noncomputable def newAssign (tgt : List (Target ℝ)) : Option (List ℕ × List ℕ) :=
  let raster := tgt2raster tgt 100 100
  let s0 := calcMappings tgt raster
  let pq := calc_pri tgt s0.t2f raster
  newLoop tgt raster (sumT tgt.length s0 + tgt.length + 1) s0 pq [] []

/-! ### Exposure-level target selection -/

/-- Embeds `select_observable`: keep the targets for which some fiber center
lies within `rmax + safety` (via the fiber-position raster's `anyIn`). -/
noncomputable def select_observable (tgt : List (Target ℝ)) (safety : ℝ) : List ℕ :=
  let fpos := (List.range nfiber).map id2fiberpos
  let raster := mkFpraster fpos 100 100
  (List.range tgt.length).filter
    (fun i => raster.anyIn (tgt.getD i default).pos (rmax + safety))

/-- Embeds the post-projection part of `single_exposure` (the `#if 1` branch):
filter the projected targets through `select_observable` with safety
`r_kernel`, hand exactly the kept targets to the strategy, and remap the
returned target indices through `idx`. -/
noncomputable def single_exposure_proj (tgt1 : List (Target ℝ))
    (ass : List (Target ℝ) → Option (List ℕ × List ℕ)) : Option (List ℕ × List ℕ) :=
  let idx := select_observable tgt1 r_kernel
  let tgt2 := idx.map (fun i => tgt1.getD i default)
  if tgt2 = [] then some ([], [])
  else (ass tgt2).map (fun r => (r.1.map (fun t => idx.getD t 0), r.2))

/-! ### Specification predicates used by the theorems -/

/-- The raster answers range queries exactly: `query` is duplicate-free and
returns precisely the indices within the radius, and `anyIn` is its Boolean
projection. -/
def QueryExact (P : fpraster K) : Prop :=
  ∀ c rad, 0 ≤ rad →
    (P.query c rad).Nodup ∧
    (∀ k, k ∈ P.query c rad ↔ k < P.loc.length ∧ c.dsq (P.loc.getD k default) ≤ rad * rad) ∧
    (P.anyIn c rad = true ↔ ∃ k, k < P.loc.length ∧ c.dsq (P.loc.getD k default) ≤ rad * rad)

/-- The total preorder "`a` is at least as good as `b`" for the assignment
comparator: the negation of `pqLt b a` computed explicitly (smaller `pri`
wins, then larger `prox`). -/
def pqDom (a b : pq_entry K) : Prop :=
  a.pri < b.pri ∨ (a.pri = b.pri ∧ b.prox ≤ a.prox)

/-- Index coherence of a `pqueue`: the heap array `idx` on slots `1..n` and
the back-pointers `nodes[*].pos` are mutually inverse bijections. -/
def pqueue.Coh (q : pqueue K) : Prop :=
  (∀ k, 1 ≤ k → k ≤ q.n → q.idx k < q.n ∧ (q.nodes (q.idx k)).pos = k) ∧
  (∀ m, m < q.n →
    1 ≤ (q.nodes m).pos ∧ (q.nodes m).pos ≤ q.n ∧ q.idx ((q.nodes m).pos) = m)

/-- The heap property restricted to edges whose parent slot is at least `r`. -/
def pqueue.HeapAt (q : pqueue K) (r : ℕ) : Prop :=
  ∀ k, 2 ≤ k → k ≤ q.n → r ≤ k / 2 →
    pqDom (q.nodes (q.idx (k / 2))).pri (q.nodes (q.idx k)).pri

/-- The state reached by placing element `moving` into slot `i`; also the
"virtual" state about which the sift invariants are phrased. -/
def pqueue.place (q : pqueue K) (i moving : ℕ) : pqueue K :=
  { q with idx := upd q.idx i moving,
           nodes := upd q.nodes moving ⟨(q.nodes moving).pri, i⟩ }

/-- Invariant carried by all three strategies across `cleanup` calls: list
bounds, duplicate-freedom, the `f2t`/`t2f` bijection (I1), separation of every
still-assignable target from every committed one, and emptiness of the
committed fibers' lists. -/
structure MapInv (tgt : List (Target K)) (cT cF : List ℕ) (s : MapState) : Prop where
  f2tBound : ∀ i j, j ∈ s.f2t i → i < nfiber ∧ j < tgt.length
  f2tNodup : ∀ i, (s.f2t i).Nodup
  t2fNodup : ∀ j, (s.t2f j).Nodup
  bij : ∀ i j, i ∈ s.t2f j ↔ j ∈ s.f2t i
  far : ∀ i j, j ∈ s.f2t i → ∀ t ∈ cT,
    colldist * colldist < (tgt.getD j default).pos.dsq (tgt.getD t default).pos
  committedF_empty : ∀ f ∈ cF, s.f2t f = []

/-- The output contract of an assignment strategy (claim C7): equally long
`tid`/`fid`, no duplicated target, no duplicated fiber, and pairwise
separation of the committed targets by more than `colldist`. -/
def OutProps (tgt : List (Target K)) (out : List ℕ × List ℕ) : Prop :=
  out.1.length = out.2.length ∧ out.1.Nodup ∧ out.2.Nodup ∧
  out.1.Pairwise
    (fun a b => colldist * colldist < (tgt.getD a default).pos.dsq (tgt.getD b default).pos)

/-- Closed form of the `f2t` mapping produced by a successful `cleanup` call:
the committed fiber is emptied, and every target hit by the collision query
`tmp` is removed from every list. -/
def cleanF (s : MapState) (fiber : ℕ) (tmp : List ℕ) : ℕ → List ℕ :=
  fun f => (upd s.f2t fiber [] f).filter (fun j => ¬ j ∈ tmp)

/-- Closed form of the `t2f` mapping produced by a successful `cleanup` call:
the queried targets are emptied, and the committed fiber is removed from the
lists of the targets it could observe. -/
def cleanT (s : MapState) (fiber : ℕ) (tmp : List ℕ) : ℕ → List ℕ :=
  fun t =>
    if t ∈ tmp then []
    else if t ∈ s.f2t fiber then (s.t2f t).filter (fun x => x ≠ fiber) else s.t2f t

/-- The number of non-sentinel entries of the priority queue; together with
the total `t2f` size it bounds the iterations of `NewAssigner`'s loop. -/
def nonSent (pq : pqueue K) (len : ℕ) : ℕ :=
  ((List.range len).filter (fun m => (pq.nodes m).pri.pri ≠ 2 ^ 30)).length

/-! ## Theorems

### Spatial-index exactness -/

theorem ktrunc_mono {a b : K} (h : a ≤ b) : ktrunc a ≤ ktrunc b := by
  unfold ktrunc
  by_cases h1 : 0 ≤ a
  · rw [if_pos h1, if_pos (le_trans h1 h)]
    exact Int.floor_le_floor h
  · rw [if_neg h1]
    by_cases h2 : 0 ≤ b
    · rw [if_pos h2]
      have hb : 0 ≤ ⌊b⌋ := Int.floor_nonneg.mpr h2
      have ha : 0 ≤ ⌊-a⌋ := Int.floor_nonneg.mpr (by linarith [lt_of_not_le h1])
      omega
    · rw [if_neg h2]
      have := Int.floor_le_floor (neg_le_neg h)
      omega

theorem indexx_mono (P : fpraster K) (hidx : 0 ≤ P.idx) {a b : K} (h : a ≤ b) :
    P.indexx a ≤ P.indexx b := by
  unfold fpraster.indexx
  have := ktrunc_mono (mul_le_mul_of_nonneg_right (sub_le_sub_right h P.x0) hidx)
  omega

theorem indexy_mono (P : fpraster K) (hidy : 0 ≤ P.idy) {a b : K} (h : a ≤ b) :
    P.indexy a ≤ P.indexy b := by
  unfold fpraster.indexy
  have := ktrunc_mono (mul_le_mul_of_nonneg_right (sub_le_sub_right h P.y0) hidy)
  omega

theorem indexx_lt (P : fpraster K) (hnx : 0 < P.nx) (x : K) : P.indexx x < P.nx := by
  unfold fpraster.indexx
  omega

theorem indexy_lt (P : fpraster K) (hny : 0 < P.ny) (y : K) : P.indexy y < P.ny := by
  unfold fpraster.indexy
  omega

theorem mem_data (P : fpraster K) (k c : ℕ) :
    k ∈ P.data c ↔ k < P.loc.length ∧ P.index (P.loc.getD k default) = c := by
  simp [fpraster.data, List.mem_filter, List.mem_range]

theorem data_nodup (P : fpraster K) (c : ℕ) : (P.data c).Nodup :=
  (List.nodup_range _).filter _

theorem comp_bound {cx px rad d2 : K} (h : (cx - px) * (cx - px) ≤ d2)
    (hd : d2 ≤ rad * rad) (hrad : 0 ≤ rad) : cx - rad ≤ px ∧ px ≤ cx + rad := by
  constructor <;> nlinarith

theorem getD_mem_of_lt {α : Type} [Inhabited α] {l : List α} {k : ℕ}
    (hk : k < l.length) : l.getD k default ∈ l := by
  rw [List.getD_eq_getElem l default hk]
  exact List.get_mem l k hk

/-- Core membership/exactness property of `query` and `anyIn`, for any raster
whose bounding box encloses its points and whose inverse cell sizes are
nonnegative. -/
theorem raster_queryExact (P : fpraster K)
    (hx : ∀ p ∈ P.loc, P.x0 ≤ p.x ∧ p.x ≤ P.x1)
    (hy : ∀ p ∈ P.loc, P.y0 ≤ p.y ∧ p.y ≤ P.y1)
    (hidx : 0 ≤ P.idx) (hidy : 0 ≤ P.idy)
    (hnx : 0 < P.nx) (hny : 0 < P.ny) : QueryExact P := by
  intro c rad hrad
  by_cases hout : c.x < P.x0 - rad ∨ P.x1 + rad < c.x ∨ c.y < P.y0 - rad ∨ P.y1 + rad < c.y
  · have hempty : ∀ k, k < P.loc.length → ¬(c.dsq (P.loc.getD k default) ≤ rad * rad) := by
      intro k hk hle
      have hmem : P.loc.getD k default ∈ P.loc := getD_mem_of_lt hk
      have hpx := hx _ hmem
      have hpy := hy _ hmem
      set p := P.loc.getD k default
      have hd : (c.x - p.x) * (c.x - p.x) + (c.y - p.y) * (c.y - p.y) ≤ rad * rad := hle
      rcases hout with h | h | h | h
      · nlinarith [hpx.1, sq_nonneg (c.y - p.y)]
      · nlinarith [hpx.2, sq_nonneg (c.y - p.y)]
      · nlinarith [hpy.1, sq_nonneg (c.x - p.x)]
      · nlinarith [hpy.2, sq_nonneg (c.x - p.x)]
    refine ⟨?_, ?_, ?_⟩
    · simp [fpraster.query, hout]
    · intro k
      simp only [fpraster.query, if_pos hout, List.not_mem_nil, false_iff, not_and]
      intro hk
      exact hempty k hk
    · simp only [fpraster.anyIn, if_pos hout, Bool.false_eq_true, false_iff, not_exists]
      intro k hk
      exact hempty k hk.1 hk.2
  · have hquery : ∀ k, k ∈ P.query c rad ↔
        k < P.loc.length ∧ c.dsq (P.loc.getD k default) ≤ rad * rad := by
      intro k
      simp only [fpraster.query, if_neg hout, List.mem_flatMap, List.mem_filter,
        List.mem_range'_1, mem_data, decide_eq_true_eq]
      constructor
      · rintro ⟨j, hj, i, hi, ⟨⟨hk, -⟩, hd⟩⟩
        exact ⟨hk, hd⟩
      · rintro ⟨hk, hd⟩
        have hmem : P.loc.getD k default ∈ P.loc := getD_mem_of_lt hk
        set p := P.loc.getD k default with hp
        have hdx : (c.x - p.x) * (c.x - p.x) ≤ c.dsq p := by
          have := sq_nonneg (c.y - p.y)
          unfold vec2.dsq
          nlinarith
        have hdy : (c.y - p.y) * (c.y - p.y) ≤ c.dsq p := by
          have := sq_nonneg (c.x - p.x)
          unfold vec2.dsq
          nlinarith
        have hxb := comp_bound hdx hd hrad
        have hyb := comp_bound hdy hd hrad
        have hi0 : P.indexx (c.x - rad) ≤ P.indexx p.x := indexx_mono P hidx hxb.1
        have hi1 : P.indexx p.x ≤ P.indexx (c.x + rad) := indexx_mono P hidx hxb.2
        have hj0 : P.indexy (c.y - rad) ≤ P.indexy p.y := indexy_mono P hidy hyb.1
        have hj1 : P.indexy p.y ≤ P.indexy (c.y + rad) := indexy_mono P hidy hyb.2
        refine ⟨P.indexy p.y, ⟨hj0, by omega⟩, P.indexx p.x, ⟨hi0, by omega⟩,
          ⟨⟨hk, rfl⟩, hd⟩⟩
    have hnodup : (P.query c rad).Nodup := by
      simp only [fpraster.query, if_neg hout]
      apply List.nodup_flatMap.mpr
      constructor
      · intro j hj
        apply List.nodup_flatMap.mpr
        refine ⟨fun i _ => (data_nodup P _).filter _, ?_⟩
        apply List.Pairwise.imp_of_mem ?_ (List.pairwise_lt_range' _ _)
        intro i i' hi hi' hlt k hk hk'
        have h1 := ((mem_data P k _).mp (List.mem_filter.mp hk).1).2
        have h2 := ((mem_data P k _).mp (List.mem_filter.mp hk').1).2
        omega
      · apply List.Pairwise.imp_of_mem ?_ (List.pairwise_lt_range' _ _)
        intro j j' hj hj' hlt k hk hk'
        have hi1 : P.indexx (c.x + rad) < P.nx := indexx_lt P hnx _
        rcases List.mem_flatMap.mp hk with ⟨i, hi, hkf⟩
        rcases List.mem_flatMap.mp hk' with ⟨i', hi', hkf'⟩
        have h1 := ((mem_data P k _).mp (List.mem_filter.mp hkf).1).2
        have h2 := ((mem_data P k _).mp (List.mem_filter.mp hkf').1).2
        have hb : i ≤ P.indexx (c.x + rad) := by
          rcases List.mem_range'_1.mp hi with ⟨h3, h4⟩
          omega
        have hb' : i' ≤ P.indexx (c.x + rad) := by
          rcases List.mem_range'_1.mp hi' with ⟨h3, h4⟩
          omega
        have hmul : P.nx * (j + 1) ≤ P.nx * j' := Nat.mul_le_mul_left _ hlt
        rw [Nat.mul_succ] at hmul
        omega
    have hlink : (P.anyIn c rad = true) ↔ ∃ k, k ∈ P.query c rad := by
      simp only [fpraster.anyIn, fpraster.query, if_neg hout, List.any_eq_true,
        List.mem_flatMap, List.mem_filter]
      constructor
      · rintro ⟨j, hj, i, hi, k, hk, hd⟩
        exact ⟨k, j, hj, i, hi, hk, hd⟩
      · rintro ⟨k, j, hj, i, hi, hk, hd⟩
        exact ⟨j, hj, i, hi, k, hk, hd⟩
    refine ⟨hnodup, hquery, ?_⟩
    rw [hlink]
    constructor
    · rintro ⟨k, hk⟩
      exact ⟨k, (hquery k).mp hk⟩
    · rintro ⟨k, hk⟩
      exact ⟨k, (hquery k).mpr hk⟩

theorem foldl_min_le_init (l : List K) (a : K) : l.foldl min a ≤ a := by
  induction l generalizing a with
  | nil => simp
  | cons h t ih => exact le_trans (ih (min a h)) (min_le_left _ _)

theorem foldl_min_le_mem {l : List K} {b : K} (hb : b ∈ l) (a : K) : l.foldl min a ≤ b := by
  induction l generalizing a with
  | nil => cases hb
  | cons h t ih =>
    rcases List.mem_cons.mp hb with rfl | hb'
    · exact le_trans (foldl_min_le_init t (min a b)) (min_le_right _ _)
    · exact ih hb' _

theorem init_le_foldl_max (l : List K) (a : K) : a ≤ l.foldl max a := by
  induction l generalizing a with
  | nil => simp
  | cons h t ih => exact le_trans (le_max_left _ _) (ih (max a h))

theorem mem_le_foldl_max {l : List K} {b : K} (hb : b ∈ l) (a : K) : b ≤ l.foldl max a := by
  induction l generalizing a with
  | nil => cases hb
  | cons h t ih =>
    rcases List.mem_cons.mp hb with rfl | hb'
    · exact le_trans (le_max_right _ _) (init_le_foldl_max t (max a b))
    · exact ih hb' _

theorem mkFpraster_queryExact (loc : List (vec2 K)) (nx ny : ℕ)
    (hnx : 0 < nx) (hny : 0 < ny) : QueryExact (mkFpraster loc nx ny) := by
  have hxle : (loc.map vec2.x).foldl min (loc.headD default).x ≤
      (loc.map vec2.x).foldl max (loc.headD default).x :=
    le_trans (foldl_min_le_init _ _) (init_le_foldl_max _ _)
  have hyle : (loc.map vec2.y).foldl min (loc.headD default).y ≤
      (loc.map vec2.y).foldl max (loc.headD default).y :=
    le_trans (foldl_min_le_init _ _) (init_le_foldl_max _ _)
  apply raster_queryExact
  · intro p hp
    have hp' : p ∈ loc := hp
    simp only [mkFpraster]
    refine ⟨foldl_min_le_mem (List.mem_map_of_mem vec2.x hp') (loc.headD default).x, ?_⟩
    refine le_trans (mem_le_foldl_max (List.mem_map_of_mem vec2.x hp') (loc.headD default).x) ?_
    split
    · norm_num
    · exact le_refl _
  · intro p hp
    have hp' : p ∈ loc := hp
    simp only [mkFpraster]
    refine ⟨foldl_min_le_mem (List.mem_map_of_mem vec2.y hp') (loc.headD default).y, ?_⟩
    refine le_trans (mem_le_foldl_max (List.mem_map_of_mem vec2.y hp') (loc.headD default).y) ?_
    split
    · norm_num
    · exact le_refl _
  · simp only [mkFpraster]
    apply div_nonneg (Nat.cast_nonneg nx)
    apply le_of_lt
    rw [sub_pos]
    split
    · rename_i hEq
      rw [← hEq]
      norm_num
    · rename_i hNe
      exact lt_of_le_of_ne hxle hNe
  · simp only [mkFpraster]
    apply div_nonneg (Nat.cast_nonneg ny)
    apply le_of_lt
    rw [sub_pos]
    split
    · rename_i hEq
      rw [← hEq]
      norm_num
    · rename_i hNe
      exact lt_of_le_of_ne hyle hNe
  · exact hnx
  · exact hny

theorem tgt2raster_loc_getD (tgt : List (Target K)) (nx ny k : ℕ) :
    (tgt2raster tgt nx ny).loc.getD k default = (tgt.getD k default).pos := by
  show (tgt.map Target.pos).getD k default = (tgt.getD k default).pos
  by_cases hk : k < tgt.length
  · rw [List.getD_eq_getElem _ _ (by simpa using hk), List.getD_eq_getElem _ _ hk,
      List.getElem_map]
  · rw [List.getD_eq_default _ _ (by simpa using Nat.le_of_not_lt hk),
      List.getD_eq_default _ _ (Nat.le_of_not_lt hk)]
    rfl

theorem tgt2raster_loc_length (tgt : List (Target K)) (nx ny : ℕ) :
    (tgt2raster tgt nx ny).loc.length = tgt.length := by
  show (tgt.map Target.pos).length = tgt.length
  exact List.length_map _ _

/-- Exactness of `query` over a target raster, phrased on the target list. -/
theorem mem_tgt_query (tgt : List (Target K)) {rad : K} (hrad : 0 ≤ rad)
    (c : vec2 K) (k : ℕ) :
    k ∈ (tgt2raster tgt 100 100).query c rad ↔
      k < tgt.length ∧ c.dsq (tgt.getD k default).pos ≤ rad * rad := by
  have h := mkFpraster_queryExact (tgt.map Target.pos) 100 100 (by norm_num) (by norm_num)
    c rad hrad
  rw [show mkFpraster (tgt.map Target.pos) 100 100 = tgt2raster tgt 100 100 from rfl] at h
  rw [h.2.1 k, tgt2raster_loc_getD, tgt2raster_loc_length]

theorem tgt_query_nodup (tgt : List (Target K)) {rad : K} (hrad : 0 ≤ rad) (c : vec2 K) :
    ((tgt2raster tgt 100 100).query c rad).Nodup := by
  have h := mkFpraster_queryExact (tgt.map Target.pos) 100 100 (by norm_num) (by norm_num)
    c rad hrad
  exact h.1

/-! ### The `maxpri_in_fiber` selection loop -/

/-- The selection loop of `maxpri_in_fiber` never moves off the first entry:
its condition compares the priority at the current `idx` with a `maxpri` that
was set from the very same entry. -/
theorem maxpri_in_fiber_eq_head (fiber : ℕ) (tgt : List (Target K)) (f2t : ℕ → List ℕ) :
    maxpri_in_fiber fiber tgt f2t = (f2t fiber).getD 0 0 := by
  simp only [maxpri_in_fiber]
  have key : ∀ (L : List ℕ),
      (L.foldl
        (fun (st : ℕ × ℤ) j =>
          if (tgt.getD ((f2t fiber).getD st.1 0) default).pri < st.2 then
            (j, (tgt.getD ((f2t fiber).getD st.1 0) default).pri)
          else st)
        (0, (tgt.getD ((f2t fiber).getD 0 0) default).pri)) =
      (0, (tgt.getD ((f2t fiber).getD 0 0) default).pri) := by
    intro L
    induction L with
    | nil => rfl
    | cons a t ih =>
      rw [List.foldl_cons, if_neg (lt_irrefl _)]
      exact ih
  rw [key]

/-! ### `strip` and the exposure duration -/

theorem foldl_opt_append {α β : Type} (g : α → Option β) (L : List α) (acc : List β) :
    L.foldl (fun t2 i => t2 ++ (g i).toList) acc = acc ++ L.filterMap g := by
  induction L generalizing acc with
  | nil => simp
  | cons a t ih =>
    rw [List.foldl_cons, ih, List.filterMap_cons]
    cases g a <;> simp

/-- `strip` written as a `filterMap` over the index range: unobserved targets
pass through unchanged, observed ones are decremented and kept only if enough
time remains. -/
theorem strip_eq_filterMap (tgt : List (Target K)) (remove : List ℕ) (time : K) :
    strip tgt remove time = (List.range tgt.length).filterMap (fun i =>
      if i ∈ remove then
        (if time + 1 / 10000000 < (tgt.getD i default).time then
          some { tgt.getD i default with time := (tgt.getD i default).time - time }
        else none)
      else some (tgt.getD i default)) := by
  unfold strip
  suffices h : ∀ (L : List ℕ) (acc : List (Target K)),
      L.foldl (fun t2 i =>
        if i ∉ remove then t2 ++ [tgt.getD i default]
        else if time + 1 / 10000000 < (tgt.getD i default).time then
          t2 ++ [{ tgt.getD i default with time := (tgt.getD i default).time - time }]
        else t2) acc =
      acc ++ L.filterMap (fun i =>
        if i ∈ remove then
          (if time + 1 / 10000000 < (tgt.getD i default).time then
            some { tgt.getD i default with time := (tgt.getD i default).time - time }
          else none)
        else some (tgt.getD i default)) by
    rw [h]
    simp
  intro L
  induction L with
  | nil => simp
  | cons a t ih =>
    intro acc
    rw [List.foldl_cons, List.filterMap_cons]
    by_cases h1 : a ∈ remove
    · rw [if_neg (not_not_intro h1), if_pos h1]
      by_cases h2 : time + 1 / 10000000 < (tgt.getD a default).time
      · rw [if_pos h2, if_pos h2, ih]
        simp
      · rw [if_neg h2, if_neg h2, ih]
    · rw [if_pos h1, if_neg h1, ih]
      simp

theorem filterMap_sublist_map {α β : Type} (g : α → Option β) (f : α → β) (L : List α)
    (h : ∀ a ∈ L, ∀ b ∈ g a, b = f a) : List.Sublist (L.filterMap g) (L.map f) := by
  induction L with
  | nil => simp
  | cons a t ih =>
    rw [List.filterMap_cons, List.map_cons]
    rcases hga : g a with _ | b
    · exact (ih fun x hx => h x (List.mem_cons_of_mem _ hx)).cons _
    · have hb : b = f a := h a (List.mem_cons_self _ _) b (by rw [hga]; rfl)
      rw [hb]
      exact (ih fun x hx => h x (List.mem_cons_of_mem _ hx)).cons₂ _

theorem expTime_foldl_min (tgt : List (Target K)) (L : List ℕ) (a : K) :
    (L.foldl (fun acc i =>
        if (tgt.getD i default).time < acc then (tgt.getD i default).time else acc) a ≤ a ∧
      ∀ i ∈ L, L.foldl (fun acc i =>
        if (tgt.getD i default).time < acc then (tgt.getD i default).time else acc) a ≤
          (tgt.getD i default).time) ∧
    (L.foldl (fun acc i =>
        if (tgt.getD i default).time < acc then (tgt.getD i default).time else acc) a = a ∨
      ∃ i ∈ L, L.foldl (fun acc i =>
        if (tgt.getD i default).time < acc then (tgt.getD i default).time else acc) a =
          (tgt.getD i default).time) := by
  induction L generalizing a with
  | nil => simp
  | cons b t ih =>
    rw [List.foldl_cons]
    rcases ih (if (tgt.getD b default).time < a then (tgt.getD b default).time else a)
      with ⟨⟨ih1, ih2⟩, ih3⟩
    constructor
    · constructor
      · refine le_trans ih1 ?_
        split
        · rename_i hlt
          exact le_of_lt hlt
        · exact le_refl _
      · intro i hi
        rcases List.mem_cons.mp hi with rfl | hi'
        · refine le_trans ih1 ?_
          split
          · exact le_refl _
          · rename_i hnlt
            exact le_of_not_lt hnlt
        · exact ih2 i hi'
    · rcases ih3 with h | ⟨i, hi, hEq⟩
      · by_cases hb : (tgt.getD b default).time < a
        · right
          refine ⟨b, List.mem_cons_self _ _, ?_⟩
          rw [h, if_pos hb]
        · left
          rw [h, if_neg hb]
      · right
        exact ⟨i, List.mem_cons_of_mem _ hi, hEq⟩

theorem headD_mem {l : List ℕ} (h : l ≠ []) : l.headD 0 ∈ l := by
  cases l with
  | nil => exact absurd rfl h
  | cons a t => exact List.mem_cons_self _ _

/-! ### Claim theorems C1, C2, C4, C9, C10 -/

/-- C1: the claim states that `maxpri_in_fiber` returns the target of
`F2T[fiber]` with the smallest `pri` value (ties by first occurrence).  The
source loop compares `tgt[f2t[fiber][idx]].pri` against a `maxpri` that was
read from the same entry, so it never moves and always returns the *first*
entry.  Below, `F2T[0] = [0, 1]` with priorities `5` and `3`: the smallest-pri
target is `1`, but the function evaluates to `0` — the code contradicts its
own documentation ("assign the target with the highest priority"). -/
theorem C1_maxpri_in_fiber_bug :
    maxpri_in_fiber 0
      [({ pos := ⟨0, 0⟩, time := 1, pri := 5, id := 0 } : Target ℚ),
       { pos := ⟨0, 0⟩, time := 1, pri := 3, id := 1 }] (fun _ => [0, 1]) = 0 ∧
    (([({ pos := ⟨0, 0⟩, time := 1, pri := 5, id := 0 } : Target ℚ),
       { pos := ⟨0, 0⟩, time := 1, pri := 3, id := 1 }].getD 1 default).pri <
     ([({ pos := ⟨0, 0⟩, time := 1, pri := 5, id := 0 } : Target ℚ),
       { pos := ⟨0, 0⟩, time := 1, pri := 3, id := 1 }].getD 0 default).pri) := by
  constructor
  · rw [maxpri_in_fiber_eq_head]
    rfl
  · norm_num [List.getD]

/-- C2: the claim states that the tangent-plane pair is rotated by the
position angle `psi`, i.e. mapped to
`(cos psi * u - sin psi * v, sin psi * u + cos psi * v)`, before the
distortion polynomial.  The source calls `rotate(pnew, cpsi, spsi)`, passing
`cos psi` into the *sine* slot and `sin psi` into the *cosine* slot of
`rotate(pos, sa, ca)`, so it actually rotates by `pi/2 - psi`.  At `psi = 0`
(`cpsi = 1`, `spsi = 0`) the claimed map is the identity rotation, but the
code sends `(u, v) = (0, 1)` to `(-1, 0)` before the polynomial, so the two
maps produce different positions. -/
theorem C2_targetToPFI_rotation_bug :
    pfiMap (1 : ℚ) 0 ⟨0, 1⟩ = ⟨6823 / 20, 0⟩ ∧
    pfiMapSpec (1 : ℚ) 0 ⟨0, 1⟩ = ⟨0, 6823 / 20⟩ ∧
    pfiMap (1 : ℚ) 0 ⟨0, 1⟩ ≠ pfiMapSpec (1 : ℚ) 0 ⟨0, 1⟩ := by
  refine ⟨?_, ?_, ?_⟩ <;> norm_num [pfiMap, pfiMapSpec, rotate, vec2.mk.injEq]

/-- C4: a spatial index built from a non-empty point list with positive cell
counts answers `query(p, r)`, for `r ≥ 0`, with exactly the duplicate-free set
of indices whose squared distance from `p` is at most `r^2` (in particular the
empty result outside the inflated bounding box is exact). -/
theorem C4_query_exact (loc : List (vec2 ℚ)) (hne : loc ≠ []) (nx ny : ℕ)
    (hnx : 0 < nx) (hny : 0 < ny) (p : vec2 ℚ) (rad : ℚ) (hrad : 0 ≤ rad) :
    ((mkFpraster loc nx ny).query p rad).Nodup ∧
    (∀ k, k ∈ (mkFpraster loc nx ny).query p rad ↔
      k < loc.length ∧ p.dsq (loc.getD k default) ≤ rad * rad) := by
  have h := mkFpraster_queryExact loc nx ny hnx hny p rad hrad
  exact ⟨h.1, h.2.1⟩

/-- C4 witness: the theorem applied to a concrete two-point index. -/
theorem C4_query_exact_witness :
    ([(⟨0, 0⟩ : vec2 ℚ), ⟨3, 4⟩] ≠ []) ∧ (0 < 1) ∧ ((0 : ℚ) ≤ 5) ∧
    (((mkFpraster [(⟨0, 0⟩ : vec2 ℚ), ⟨3, 4⟩] 1 1).query ⟨0, 0⟩ 5).Nodup ∧
     (∀ k, k ∈ (mkFpraster [(⟨0, 0⟩ : vec2 ℚ), ⟨3, 4⟩] 1 1).query ⟨0, 0⟩ 5 ↔
       k < [(⟨0, 0⟩ : vec2 ℚ), ⟨3, 4⟩].length ∧
         vec2.dsq ⟨0, 0⟩ ([(⟨0, 0⟩ : vec2 ℚ), ⟨3, 4⟩].getD k default) ≤ 5 * 5)) :=
  ⟨by simp, by norm_num, by norm_num,
   C4_query_exact _ (by simp) 1 1 (by norm_num) (by norm_num) _ _ (by norm_num)⟩

/-- C9: for a driver iteration whose assigned set `tids` is non-empty, the
exposure duration computed in `subprocess` is the minimum remaining time over
the assigned targets, and `strip` decreases each assigned target's time by
exactly that duration, keeping the target iff the decremented time exceeds
`1e-7` (non-assigned targets pass through unchanged). -/
theorem C9_exposure_duration_and_strip (tgt : List (Target ℚ)) (tids : List ℕ)
    (hne : tids ≠ []) :
    ((∀ i ∈ tids, expTime tgt tids ≤ (tgt.getD i default).time) ∧
     (∃ i ∈ tids, expTime tgt tids = (tgt.getD i default).time)) ∧
    strip tgt tids (expTime tgt tids) = (List.range tgt.length).filterMap (fun i =>
      if i ∈ tids then
        (if 1 / 10000000 < (tgt.getD i default).time - expTime tgt tids then
          some { tgt.getD i default with
                 time := (tgt.getD i default).time - expTime tgt tids }
        else none)
      else some (tgt.getD i default)) := by
  constructor
  · have h := expTime_foldl_min tgt tids ((tgt.getD (tids.headD 0) default).time)
    refine ⟨fun i hi => h.1.2 i hi, ?_⟩
    rcases h.2 with hEq | ⟨i, hi, hEq⟩
    · exact ⟨tids.headD 0, headD_mem hne, hEq⟩
    · exact ⟨i, hi, hEq⟩
  · rw [strip_eq_filterMap]
    apply List.filterMap_congr
    intro i _
    by_cases h1 : i ∈ tids
    · rw [if_pos h1, if_pos h1]
      by_cases h2 : expTime tgt tids + 1 / 10000000 < (tgt.getD i default).time
      · rw [if_pos h2, if_pos (by linarith)]
      · rw [if_neg h2, if_neg (fun hc => h2 (by linarith))]
    · rw [if_neg h1, if_neg h1]

/-- C9 witness: the theorem applied to a concrete two-target iteration. -/
theorem C9_exposure_duration_and_strip_witness :
    (([0, 1] : List ℕ) ≠ []) ∧
    (((∀ i ∈ ([0, 1] : List ℕ),
        expTime [({ pos := ⟨0, 0⟩, time := 5, pri := 1, id := 0 } : Target ℚ),
          { pos := ⟨1, 0⟩, time := 3, pri := 2, id := 1 }] [0, 1] ≤
        ([({ pos := ⟨0, 0⟩, time := 5, pri := 1, id := 0 } : Target ℚ),
          { pos := ⟨1, 0⟩, time := 3, pri := 2, id := 1 }].getD i default).time) ∧
      (∃ i ∈ ([0, 1] : List ℕ),
        expTime [({ pos := ⟨0, 0⟩, time := 5, pri := 1, id := 0 } : Target ℚ),
          { pos := ⟨1, 0⟩, time := 3, pri := 2, id := 1 }] [0, 1] =
        ([({ pos := ⟨0, 0⟩, time := 5, pri := 1, id := 0 } : Target ℚ),
          { pos := ⟨1, 0⟩, time := 3, pri := 2, id := 1 }].getD i default).time)) ∧
     strip [({ pos := ⟨0, 0⟩, time := 5, pri := 1, id := 0 } : Target ℚ),
         { pos := ⟨1, 0⟩, time := 3, pri := 2, id := 1 }] [0, 1]
        (expTime [({ pos := ⟨0, 0⟩, time := 5, pri := 1, id := 0 } : Target ℚ),
          { pos := ⟨1, 0⟩, time := 3, pri := 2, id := 1 }] [0, 1]) =
      (List.range
        ([({ pos := ⟨0, 0⟩, time := 5, pri := 1, id := 0 } : Target ℚ),
          { pos := ⟨1, 0⟩, time := 3, pri := 2, id := 1 }].length)).filterMap (fun i =>
        if i ∈ ([0, 1] : List ℕ) then
          (if 1 / 10000000 <
              ([({ pos := ⟨0, 0⟩, time := 5, pri := 1, id := 0 } : Target ℚ),
                { pos := ⟨1, 0⟩, time := 3, pri := 2, id := 1 }].getD i default).time -
              expTime [({ pos := ⟨0, 0⟩, time := 5, pri := 1, id := 0 } : Target ℚ),
                { pos := ⟨1, 0⟩, time := 3, pri := 2, id := 1 }] [0, 1] then
            some { [({ pos := ⟨0, 0⟩, time := 5, pri := 1, id := 0 } : Target ℚ),
                { pos := ⟨1, 0⟩, time := 3, pri := 2, id := 1 }].getD i default with
              time :=
                ([({ pos := ⟨0, 0⟩, time := 5, pri := 1, id := 0 } : Target ℚ),
                  { pos := ⟨1, 0⟩, time := 3, pri := 2, id := 1 }].getD i default).time -
                expTime [({ pos := ⟨0, 0⟩, time := 5, pri := 1, id := 0 } : Target ℚ),
                  { pos := ⟨1, 0⟩, time := 3, pri := 2, id := 1 }] [0, 1] }
          else none)
        else
          some ([({ pos := ⟨0, 0⟩, time := 5, pri := 1, id := 0 } : Target ℚ),
            { pos := ⟨1, 0⟩, time := 3, pri := 2, id := 1 }].getD i default))) :=
  ⟨by simp, C9_exposure_duration_and_strip _ _ (by simp)⟩

/-- C10: the post-exposure update `strip` leaves every target not listed in
the assigned set unchanged in all fields (the unchanged target is still a
member of the result), and preserves the relative order of all surviving
targets (the result is a sublist of the in-order decrement-mapped list). -/
theorem C10_strip_frame_and_order (tgt : List (Target ℚ)) (remove : List ℕ) (time : ℚ) :
    (strip tgt remove time = (List.range tgt.length).filterMap (fun i =>
      if i ∈ remove then
        (if time + 1 / 10000000 < (tgt.getD i default).time then
          some { tgt.getD i default with time := (tgt.getD i default).time - time }
        else none)
      else some (tgt.getD i default))) ∧
    (∀ i, i < tgt.length → i ∉ remove → tgt.getD i default ∈ strip tgt remove time) ∧
    List.Sublist (strip tgt remove time)
      ((List.range tgt.length).map (fun i =>
        if i ∈ remove then
          { tgt.getD i default with time := (tgt.getD i default).time - time }
        else tgt.getD i default)) := by
  refine ⟨strip_eq_filterMap tgt remove time, ?_, ?_⟩
  · intro i hi hnr
    rw [strip_eq_filterMap]
    apply List.mem_filterMap.mpr
    exact ⟨i, List.mem_range.mpr hi, by rw [if_neg hnr]⟩
  · rw [strip_eq_filterMap]
    apply filterMap_sublist_map
    intro a _ b hb
    by_cases h1 : a ∈ remove
    · rw [if_pos h1] at hb ⊢
      by_cases h2 : time + 1 / 10000000 < (tgt.getD a default).time
      · rw [if_pos h2] at hb
        cases hb
        rfl
      · rw [if_neg h2] at hb
        cases hb
    · rw [if_neg h1] at hb ⊢
      cases hb
      rfl

/-! ### Reachability mappings (C6) and the exposure-level filter (C3) -/

theorem range_map_getD {α : Type} [Inhabited α] (g : ℕ → α) (n f : ℕ) (hf : f < n) :
    ((List.range n).map g).getD f default = g f := by
  rw [List.getD_eq_getElem _ default (by simpa using hf)]
  simp

/-- C6: after `calcMappings` (with the raster the strategies build), a target
`j` is in `F2T[f]` iff it is within `RMAX` of the fiber center and at least
`DOTDIST` from the dot center — both boundaries inclusive, stated on squared
distances exactly as the code computes them (`dist <= RMAX` iff
`dsq <= RMAX^2`, and a target exactly at `DOTDIST` satisfies `>=`). -/
theorem C6_calcMappings_membership (tgt : List (Target ℝ)) (hne : tgt ≠ [])
    (f j : ℕ) (hf : f < nfiber) :
    j ∈ (calcMappings tgt (tgt2raster tgt 100 100)).f2t f ↔
      j < tgt.length ∧
      (id2fiberpos f).dsq (tgt.getD j default).pos ≤ rmax * rmax ∧
      (id2dotpos f).dsq (tgt.getD j default).pos ≥ dotdist * dotdist := by
  have hq := mem_tgt_query tgt ((by norm_num [rmax] : (0 : ℝ) ≤ rmax)) (id2fiberpos f) j
  simp only [calcMappings, if_pos hf, List.mem_filter, decide_eq_true_eq]
  rw [hq]
  constructor
  · rintro ⟨⟨h1, h2⟩, h3⟩
    exact ⟨h1, h2, h3⟩
  · rintro ⟨h1, h2, h3⟩
    exact ⟨⟨h1, h2⟩, h3⟩

/-- C6 witness: the theorem applied at a concrete one-target list and fiber 0. -/
theorem C6_calcMappings_membership_witness :
    (([({ pos := ⟨0, 0⟩, time := 1, pri := 1, id := 0 } : Target ℝ)] : List (Target ℝ)) ≠ []) ∧
    (0 < nfiber) ∧
    (0 ∈ (calcMappings [({ pos := ⟨0, 0⟩, time := 1, pri := 1, id := 0 } : Target ℝ)]
        (tgt2raster [({ pos := ⟨0, 0⟩, time := 1, pri := 1, id := 0 } : Target ℝ)] 100 100)).f2t 0 ↔
      0 < ([({ pos := ⟨0, 0⟩, time := 1, pri := 1, id := 0 } : Target ℝ)] : List (Target ℝ)).length ∧
      (id2fiberpos 0).dsq (([({ pos := ⟨0, 0⟩, time := 1, pri := 1, id := 0 } : Target ℝ)] :
        List (Target ℝ)).getD 0 default).pos ≤ rmax * rmax ∧
      (id2dotpos 0).dsq (([({ pos := ⟨0, 0⟩, time := 1, pri := 1, id := 0 } : Target ℝ)] :
        List (Target ℝ)).getD 0 default).pos ≥ dotdist * dotdist) :=
  ⟨by simp, by norm_num [nfiber],
   C6_calcMappings_membership _ (by simp) 0 0 (by norm_num [nfiber])⟩

/-- Membership characterization of `select_observable`: target `i` is kept iff
some fiber center lies within `rmax + safety` of it. -/
theorem select_observable_mem (tgt : List (Target ℝ)) (safety : ℝ)
    (hs : 0 ≤ rmax + safety) (i : ℕ) :
    i ∈ select_observable tgt safety ↔
      i < tgt.length ∧ ∃ f, f < nfiber ∧
        (tgt.getD i default).pos.dsq (id2fiberpos f) ≤ (rmax + safety) * (rmax + safety) := by
  have hq := mkFpraster_queryExact ((List.range nfiber).map id2fiberpos) 100 100
    (by norm_num) (by norm_num) (tgt.getD i default).pos (rmax + safety) hs
  simp only [select_observable, List.mem_filter, List.mem_range]
  rw [hq.2.2]
  simp only [show (mkFpraster ((List.range nfiber).map id2fiberpos) 100 100).loc =
      (List.range nfiber).map id2fiberpos from rfl, List.length_map, List.length_range]
  constructor
  · rintro ⟨h1, k, hk, hd⟩
    rw [range_map_getD _ _ _ hk] at hd
    exact ⟨h1, k, hk, hd⟩
  · rintro ⟨h1, k, hk, hd⟩
    refine ⟨h1, k, hk, ?_⟩
    rw [range_map_getD _ _ _ hk]
    exact hd

/-- The fiber position for id 742 (field 0, module 13, cobra 1). -/
theorem id2fiberpos_742 : id2fiberpos 742 = ⟨-224 * vspace, 104⟩ := by
  simp only [id2fiberpos]
  norm_num
  ring

/-- C3 counterexample: the claim says the targets removed before invoking the
strategy are exactly those farther than `RPLATE + RKERN = 194.75` from the
focal-plane origin.  The projected target at `(-194, 104)` is farther than
that from the origin (squared distance `48452 > 194.75^2`), yet the code keeps
it and passes it to the strategy, because fiber 742 (at `(-224*sqrt(0.75),
104)`, about `194` mm from the origin in x) lies within
`RMAX + RKERN = 9.5` of it. -/
theorem C3_filter_counterexample :
    0 ∈ select_observable
        [({ pos := ⟨-194, 104⟩, time := 1, pri := 1, id := 0 } : Target ℝ)] r_kernel ∧
    (190 + 19 / 4 : ℝ) * (190 + 19 / 4) <
      vec2.dsq ⟨-194, 104⟩ (⟨0, 0⟩ : vec2 ℝ) := by
  constructor
  · rw [select_observable_mem _ _ (by norm_num [rmax, r_kernel]) 0]
    refine ⟨by norm_num, 742, by norm_num [nfiber], ?_⟩
    rw [id2fiberpos_742]
    have hsq : vspace * vspace = 0.75 := Real.mul_self_sqrt (by norm_num)
    have hlb : (0.8659 : ℝ) ≤ vspace := by
      rw [vspace, show (0.8659 : ℝ) = Real.sqrt (0.8659 ^ 2) from
        (Real.sqrt_sq (by norm_num)).symm]
      apply Real.sqrt_le_sqrt
      norm_num
    show vec2.dsq _ _ ≤ _
    simp only [vec2.dsq, rmax, r_kernel]
    norm_num
    nlinarith
  · norm_num [vec2.dsq]

/-- C3 amended: for every grid candidate, the targets removed before invoking
the assignment strategy are exactly those projected targets with *no fiber
center* within `RMAX + RKERN` (= 9.5 mm); every kept target appears in the
list `tgt2` that `single_exposure` hands to the strategy. -/
theorem C3_select_observable_amended (tgt1 : List (Target ℝ)) :
    (∀ i, i ∈ select_observable tgt1 r_kernel ↔
      i < tgt1.length ∧ ∃ f, f < nfiber ∧
        (tgt1.getD i default).pos.dsq (id2fiberpos f) ≤
          (rmax + r_kernel) * (rmax + r_kernel)) ∧
    (∀ i, i ∈ select_observable tgt1 r_kernel →
      tgt1.getD i default ∈
        (select_observable tgt1 r_kernel).map (fun k => tgt1.getD k default)) := by
  constructor
  · intro i
    exact select_observable_mem tgt1 r_kernel (by norm_num [rmax, r_kernel]) i
  · intro i hi
    exact List.mem_map_of_mem _ hi

/-! ### Heap verification for the mutable priority queue (C5) -/

theorem pqDom_iff_not_lt (a b : pq_entry K) : pqDom a b ↔ ¬ pqLt a b := by
  unfold pqDom pqLt
  split
  · rename_i hEq
    constructor
    · rintro (h | ⟨-, h⟩)
      · omega
      · exact not_lt.mpr h
    · intro h
      exact Or.inr ⟨hEq, not_lt.mp h⟩
  · rename_i hNe
    constructor
    · rintro (h | ⟨hEq, -⟩)
      · omega
      · exact absurd hEq hNe
    · intro h
      exact Or.inl (by omega)

theorem pqLt_dom {a b : pq_entry K} (h : pqLt a b) : pqDom b a := by
  unfold pqLt at h
  unfold pqDom
  split at h
  · rename_i hEq
    exact Or.inr ⟨hEq.symm, le_of_lt h⟩
  · exact Or.inl h

theorem pqDom_refl (a : pq_entry K) : pqDom a a := Or.inr ⟨rfl, le_refl _⟩

theorem pqDom_trans {a b c : pq_entry K} (h1 : pqDom a b) (h2 : pqDom b c) :
    pqDom a c := by
  unfold pqDom at h1 h2 ⊢
  rcases h1 with h1 | ⟨e1, p1⟩ <;> rcases h2 with h2 | ⟨e2, p2⟩
  · exact Or.inl (by omega)
  · exact Or.inl (by omega)
  · exact Or.inl (by omega)
  · exact Or.inr ⟨e1.trans e2, le_trans p2 p1⟩

theorem place_idx (q : pqueue K) (i moving k : ℕ) :
    (q.place i moving).idx k = if k = i then moving else q.idx k := by
  simp [pqueue.place, upd]

theorem place_nodes_pri (q : pqueue K) (i moving m : ℕ) :
    ((q.place i moving).nodes m).pri = (q.nodes m).pri := by
  simp only [pqueue.place, upd]
  split <;> simp_all

theorem place_nodes_pos (q : pqueue K) (i moving m : ℕ) :
    ((q.place i moving).nodes m).pos = if m = moving then i else (q.nodes m).pos := by
  simp only [pqueue.place, upd]
  split <;> simp_all

theorem place_n (q : pqueue K) (i moving : ℕ) : (q.place i moving).n = q.n := rfl

theorem upd_apply {α : Type} (f : ℕ → α) (i : ℕ) (v : α) (k : ℕ) :
    upd f i v k = if k = i then v else f k := rfl

theorem upd_pri (nodes : ℕ → pqnode K) (j : ℕ) (v : pqnode K) (m : ℕ) :
    (upd nodes j v m).pri = if m = j then v.pri else (nodes m).pri := by
  unfold upd
  split <;> rfl

theorem upd_pos (nodes : ℕ → pqnode K) (j : ℕ) (v : pqnode K) (m : ℕ) :
    (upd nodes j v m).pos = if m = j then v.pos else (nodes m).pos := by
  unfold upd
  split <;> rfl

theorem pqnode_mk_pri (p : pq_entry K) (s : ℕ) : (pqnode.mk p s).pri = p := rfl

theorem pqnode_mk_pos (p : pq_entry K) (s : ℕ) : (pqnode.mk p s).pos = s := rfl

/-- Correctness of the `sift_up` loop, stated on the "virtual" state in which
`moving` is placed at slot `i`: if that state is coherent and heap-ordered
except possibly on the edge into slot `i`, with the grandparent of `i`
dominating `i`'s children, then the loop restores full coherence and heap
order without touching any priority value. -/
theorem siftUpAux_spec :
    ∀ (i : ℕ) (q : pqueue K) (moving : ℕ) (mpri : pq_entry K),
      1 ≤ i → i ≤ q.n → moving < q.n →
      (q.nodes moving).pri = mpri →
      (∀ k, 1 ≤ k → k ≤ q.n → k ≠ i →
        q.idx k < q.n ∧ q.idx k ≠ moving ∧ (q.nodes (q.idx k)).pos = k) →
      (∀ m, m < q.n → m ≠ moving →
        1 ≤ (q.nodes m).pos ∧ (q.nodes m).pos ≤ q.n ∧ (q.nodes m).pos ≠ i ∧
        q.idx ((q.nodes m).pos) = m) →
      (∀ k, 2 ≤ k → k ≤ q.n → k ≠ i →
        pqDom (q.nodes (if k / 2 = i then moving else q.idx (k / 2))).pri
              (q.nodes (q.idx k)).pri) →
      (1 < i → ∀ c, (c = 2 * i ∨ c = 2 * i + 1) → c ≤ q.n →
        pqDom (q.nodes (q.idx (i / 2))).pri (q.nodes (q.idx c)).pri) →
      (q.siftUpAux moving mpri i).Coh ∧ (q.siftUpAux moving mpri i).HeapAt 1 ∧
      (∀ m, ((q.siftUpAux moving mpri i).nodes m).pri = (q.nodes m).pri) ∧
      (q.siftUpAux moving mpri i).n = q.n := by
  intro i
  induction i using Nat.strong_induction_on with
  | _ i ih =>
    intro q moving mpri hi1 hin hm hpri hA hB hheap hbridge
    unfold pqueue.siftUpAux
    split
    · rename_i hcond
      obtain ⟨hii, hlt⟩ := hcond
      have hpi : i / 2 < i := Nat.div_lt_self (by omega) (by omega)
      have hpne : i / 2 ≠ i := by omega
      have hp1 : 1 ≤ i / 2 := by omega
      have hpn : i / 2 ≤ q.n := by omega
      obtain ⟨hjlt, hjne, hjpos⟩ := hA (i / 2) hp1 hpn hpne
      have main := ih (i / 2) hpi
        { q with idx := upd q.idx i (q.idx (i / 2)),
                 nodes := upd q.nodes (q.idx (i / 2)) ⟨(q.nodes (q.idx (i / 2))).pri, i⟩ }
        moving mpri hp1 ?hn' ?hm' ?hpri' ?hA' ?hB' ?hheap' ?hbridge'
      case hn' =>
        dsimp only
        omega
      case hm' =>
        dsimp only
        exact hm
      case hpri' =>
        dsimp only
        rw [upd_pri, if_neg (Ne.symm hjne)]
        exact hpri
      case hA' =>
        dsimp only
        intro k hk1 hkn hkp
        simp only [upd_apply, apply_ite pqnode.pos, apply_ite pqnode.pri, pqnode_mk_pri,
          pqnode_mk_pos]
        by_cases hki : k = i
        · rw [if_pos hki, if_pos rfl]
          exact ⟨hjlt, hjne, hki.symm⟩
        · rw [if_neg hki]
          obtain ⟨h1, h2, h3⟩ := hA k hk1 hkn hki
          have hkj : q.idx k ≠ q.idx (i / 2) := by
            intro hEq
            rw [hEq, hjpos] at h3
            exact hkp h3.symm
          rw [if_neg hkj]
          exact ⟨h1, h2, h3⟩
      case hB' =>
        dsimp only
        intro m hmn hmm
        simp only [upd_apply, apply_ite pqnode.pos, apply_ite pqnode.pri, pqnode_mk_pri,
          pqnode_mk_pos]
        by_cases hmj : m = q.idx (i / 2)
        · rw [if_pos hmj]
          refine ⟨by omega, by omega, hpne.symm, ?_⟩
          rw [if_pos rfl]
          exact hmj.symm
        · rw [if_neg hmj]
          obtain ⟨h1, h2, h3, h4⟩ := hB m hmn hmm
          have hposp : (q.nodes m).pos ≠ i / 2 := by
            intro hEq
            rw [hEq] at h4
            exact hmj h4.symm
          refine ⟨h1, h2, hposp, ?_⟩
          rw [if_neg h3]
          exact h4
      case hheap' =>
        dsimp only
        intro k hk2 hkn hkp
        simp only [upd_apply, apply_ite pqnode.pos, apply_ite pqnode.pri, pqnode_mk_pri,
          pqnode_mk_pos]
        by_cases hki : k = i
        · rw [if_pos (by omega : k / 2 = i / 2), if_neg (Ne.symm hjne), if_pos hki,
            if_pos rfl]
          rw [hpri]
          exact pqLt_dom hlt
        · rw [if_neg hki]
          by_cases hkhp : k / 2 = i / 2
          · rw [if_pos hkhp, if_neg (Ne.symm hjne)]
            have hold := hheap k hk2 hkn hki
            rw [if_neg (by omega : k / 2 ≠ i), hkhp] at hold
            have hkj : q.idx k ≠ q.idx (i / 2) := by
              intro hEq
              obtain ⟨-, -, h3⟩ := hA k (by omega) hkn hki
              rw [hEq, hjpos] at h3
              exact hkp h3.symm
            rw [if_neg hkj]
            refine pqDom_trans ?_ hold
            rw [hpri]
            exact pqLt_dom hlt
          · rw [if_neg hkhp]
            by_cases hkhi : k / 2 = i
            · rw [if_pos hkhi, if_pos rfl]
              have hkj : q.idx k ≠ q.idx (i / 2) := by
                intro hEq
                obtain ⟨-, -, h3⟩ := hA k (by omega) hkn hki
                rw [hEq, hjpos] at h3
                exact hkp h3.symm
              rw [if_neg hkj]
              exact hbridge hii k (by omega) hkn
            · rw [if_neg hkhi]
              have hold := hheap k hk2 hkn hki
              rw [if_neg hkhi] at hold
              have hkhj : q.idx (k / 2) ≠ q.idx (i / 2) := by
                intro hEq
                obtain ⟨-, -, h3⟩ := hA (k / 2) (by omega) (by omega) hkhi
                rw [hEq, hjpos] at h3
                exact hkhp h3.symm
              have hkj : q.idx k ≠ q.idx (i / 2) := by
                intro hEq
                obtain ⟨-, -, h3⟩ := hA k (by omega) hkn hki
                rw [hEq, hjpos] at h3
                exact hkp h3.symm
              rw [if_neg hkhj, if_neg hkj]
              exact hold
      case hbridge' =>
        dsimp only
        intro hp2 c hc hcn
        simp only [upd_apply, apply_ite pqnode.pos, apply_ite pqnode.pri, pqnode_mk_pri,
          pqnode_mk_pos]
        have hgpi : i / 2 / 2 ≠ i := by
          have h1 : i / 2 / 2 < i / 2 := Nat.div_lt_self (by omega) (by omega)
          omega
        have hgpe := hheap (i / 2) (by omega) hpn hpne
        rw [if_neg hgpi] at hgpe
        have hgpj : q.idx (i / 2 / 2) ≠ q.idx (i / 2) := by
          intro hEq
          obtain ⟨-, -, h3⟩ := hA (i / 2 / 2) (by omega) (by omega) hgpi
          rw [hEq, hjpos] at h3
          have hlt2 : i / 2 / 2 < i / 2 := Nat.div_lt_self (by omega) (by omega)
          omega
        rw [if_neg hgpi, if_neg hgpj]
        by_cases hci : c = i
        · rw [if_pos hci, if_pos rfl]
          exact hgpe
        · rw [if_neg hci]
          have hcp : c / 2 = i / 2 := by omega
          have hce := hheap c (by omega) hcn hci
          rw [if_neg (by omega : c / 2 ≠ i), hcp] at hce
          have hcj : q.idx c ≠ q.idx (i / 2) := by
            intro hEq
            obtain ⟨-, -, h3⟩ := hA c (by omega) hcn hci
            rw [hEq, hjpos] at h3
            omega
          rw [if_neg hcj]
          exact pqDom_trans hgpe hce
      refine ⟨main.1, main.2.1, ?_, ?_⟩
      · intro m
        rw [main.2.2.1 m]
        dsimp only
        rw [upd_pri, pqnode_mk_pri]
        split
        · rename_i h
          rw [h]
        · rfl
      · rw [main.2.2.2]
    · rename_i hcond
      rw [Classical.not_and_iff_or_not_not] at hcond
      refine ⟨⟨?_, ?_⟩, ?_, ?_, rfl⟩
      · intro k hk1 hkn
        dsimp only at hkn ⊢
        simp only [upd_apply, apply_ite pqnode.pos, apply_ite pqnode.pri, pqnode_mk_pri,
          pqnode_mk_pos]
        by_cases hki : k = i
        · rw [if_pos hki, if_pos rfl]
          exact ⟨hm, hki.symm⟩
        · rw [if_neg hki]
          obtain ⟨h1, h2, h3⟩ := hA k hk1 hkn hki
          rw [if_neg h2]
          exact ⟨h1, h3⟩
      · intro m hmn
        dsimp only at hmn ⊢
        simp only [upd_apply, apply_ite pqnode.pos, apply_ite pqnode.pri, pqnode_mk_pri,
          pqnode_mk_pos]
        by_cases hmm : m = moving
        · rw [if_pos hmm]
          refine ⟨by omega, hin, ?_⟩
          rw [if_pos rfl]
          exact hmm.symm
        · rw [if_neg hmm]
          obtain ⟨h1, h2, h3, h4⟩ := hB m hmn hmm
          refine ⟨h1, h2, ?_⟩
          rw [if_neg h3]
          exact h4
      · intro k hk2 hkn hr
        dsimp only at hkn ⊢
        simp only [upd_apply, apply_ite pqnode.pos, apply_ite pqnode.pri, pqnode_mk_pri,
          pqnode_mk_pos]
        by_cases hki : k = i
        · rw [if_pos hki, if_pos rfl, if_neg (by omega : k / 2 ≠ i)]
          have hni : ¬pqLt (q.nodes (q.idx (i / 2))).pri mpri := by
            rcases hcond with hcond | hcond
            · omega
            · exact hcond
          rw [hki]
          obtain ⟨-, h2, -⟩ := hA (k / 2) (by omega) (by omega) (by omega)
          rw [hki] at h2
          rw [if_neg h2, hpri]
          exact (pqDom_iff_not_lt _ _).mpr hni
        · rw [if_neg hki]
          obtain ⟨-, hkm, -⟩ := hA k (by omega) hkn hki
          rw [if_neg hkm]
          have hold := hheap k hk2 hkn hki
          by_cases hkhi : k / 2 = i
          · rw [if_pos hkhi] at hold ⊢
            rw [if_pos rfl]
            exact hold
          · rw [if_neg hkhi] at hold ⊢
            obtain ⟨-, hkhm, -⟩ := hA (k / 2) (by omega) (by omega) hkhi
            rw [if_neg hkhm]
            exact hold
      · intro m
        dsimp only
        simp only [upd_apply, apply_ite pqnode.pri, pqnode_mk_pri]
        split
        · rename_i h
          rw [h]
        · rfl

/-- `maxchild` characterization for `1 ≤ i`: the result is `0` exactly when
slot `i` has no child inside the heap; a nonzero result is a child of `i`
inside the heap that dominates every child of `i` inside the heap. -/
theorem maxchild_spec (q : pqueue K) (i : ℕ) (hi : 1 ≤ i) :
    (q.maxchild i = 0 ↔ q.n + 1 ≤ 2 * i) ∧
    (q.maxchild i ≠ 0 →
      (q.maxchild i = 2 * i ∨ q.maxchild i = 2 * i + 1) ∧ q.maxchild i ≤ q.n ∧
      ∀ c, (c = 2 * i ∨ c = 2 * i + 1) → c ≤ q.n →
        pqDom (q.nodes (q.idx (q.maxchild i))).pri (q.nodes (q.idx c)).pri) := by
  unfold pqueue.maxchild
  dsimp only
  by_cases h1 : q.n + 1 ≤ 2 * i
  · rw [if_pos h1]
    exact ⟨⟨fun _ => h1, fun _ => rfl⟩, fun h => absurd rfl h⟩
  · rw [if_neg h1]
    by_cases h2 : 2 * i + 1 < q.n + 1 ∧
        pqLt (q.nodes (q.idx (2 * i))).pri (q.nodes (q.idx (2 * i + 1))).pri
    · rw [if_pos h2]
      refine ⟨⟨fun h => absurd h (by omega), fun h => absurd h h1⟩, fun _ => ?_⟩
      refine ⟨Or.inr rfl, by omega, ?_⟩
      rintro c (rfl | rfl) hc
      · exact pqLt_dom h2.2
      · exact pqDom_refl _
    · rw [if_neg h2]
      refine ⟨⟨fun h => absurd h (by omega), fun h => absurd h h1⟩, fun _ => ?_⟩
      refine ⟨Or.inl rfl, by omega, ?_⟩
      rw [Classical.not_and_iff_or_not_not] at h2
      rintro c (rfl | rfl) hc
      · exact pqDom_refl _
      · rcases h2 with h2 | h2
        · omega
        · exact (pqDom_iff_not_lt _ _).mpr h2

/-- Correctness of the `sift_down` loop, stated on the "virtual" state with a
hole at slot `i`: if the state is coherent, heap-ordered on slots `≥ r` away
from the hole, and the hole's parent (when in the region) dominates both the
moving element and the hole's children, then the loop restores coherence and
region heap order without touching any priority value. -/
theorem siftDownAux_spec :
    ∀ (t i : ℕ) (q : pqueue K) (moving : ℕ) (mpri : pq_entry K) (r : ℕ),
      q.n + 1 - i ≤ t →
      1 ≤ r → r ≤ i → i ≤ q.n → moving < q.n →
      (q.nodes moving).pri = mpri →
      (∀ k, 1 ≤ k → k ≤ q.n → k ≠ i →
        q.idx k < q.n ∧ q.idx k ≠ moving ∧ (q.nodes (q.idx k)).pos = k) →
      (∀ m, m < q.n → m ≠ moving →
        1 ≤ (q.nodes m).pos ∧ (q.nodes m).pos ≤ q.n ∧ (q.nodes m).pos ≠ i ∧
        q.idx ((q.nodes m).pos) = m) →
      (∀ k, 2 ≤ k → k ≤ q.n → r ≤ k / 2 → k / 2 ≠ i → k ≠ i →
        pqDom (q.nodes (q.idx (k / 2))).pri (q.nodes (q.idx k)).pri) →
      (2 ≤ i → r ≤ i / 2 →
        pqDom (q.nodes (q.idx (i / 2))).pri mpri ∧
        ∀ c, (c = 2 * i ∨ c = 2 * i + 1) → c ≤ q.n →
          pqDom (q.nodes (q.idx (i / 2))).pri (q.nodes (q.idx c)).pri) →
      (q.siftDownAux moving mpri i).Coh ∧ (q.siftDownAux moving mpri i).HeapAt r ∧
      (∀ m, ((q.siftDownAux moving mpri i).nodes m).pri = (q.nodes m).pri) ∧
      (q.siftDownAux moving mpri i).n = q.n := by
  intro t
  induction t with
  | zero =>
    intro i q moving mpri r ht hr1 hri hin
    exact absurd ht (by omega)
  | succ t ih =>
    intro i q moving mpri r ht hr1 hri hin hm hpri hA hB hheap hpar
    obtain ⟨hmc0, hmcS⟩ := maxchild_spec q i (by omega)
    unfold pqueue.siftDownAux
    split
    · rename_i hcond
      obtain ⟨hc0, hlt⟩ := hcond
      obtain ⟨hcch, hcn, hcdom⟩ := hmcS hc0
      have hci : i < q.maxchild i := by omega
      have hchalf : q.maxchild i / 2 = i := by omega
      obtain ⟨hjlt, hjne, hjpos⟩ := hA (q.maxchild i) (by omega) hcn (by omega)
      have hpriAll : ∀ x,
          (upd q.nodes (q.idx (q.maxchild i))
            ⟨(q.nodes (q.idx (q.maxchild i))).pri, i⟩ x).pri = (q.nodes x).pri := by
        intro x
        rw [upd_pri]
        split
        · rename_i h
          rw [h]
        · rfl
      have main := ih (q.maxchild i)
        { q with idx := upd q.idx i (q.idx (q.maxchild i)),
                 nodes := upd q.nodes (q.idx (q.maxchild i))
                   ⟨(q.nodes (q.idx (q.maxchild i))).pri, i⟩ }
        moving mpri r ?ht' ?hr1' ?hri' ?hin' ?hm' ?hpri' ?hA' ?hB' ?hheap' ?hpar'
      case ht' =>
        dsimp only
        omega
      case hr1' => exact hr1
      case hri' =>
        dsimp only
        omega
      case hin' =>
        dsimp only
        exact hcn
      case hm' =>
        dsimp only
        exact hm
      case hpri' =>
        dsimp only
        rw [hpriAll]
        exact hpri
      case hA' =>
        dsimp only
        intro k hk1 hkn hkc
        simp only [upd_apply, apply_ite pqnode.pos, apply_ite pqnode.pri, pqnode_mk_pri,
          pqnode_mk_pos]
        by_cases hki : k = i
        · rw [if_pos hki, if_pos rfl]
          exact ⟨hjlt, hjne, hki.symm⟩
        · rw [if_neg hki]
          obtain ⟨h1, h2, h3⟩ := hA k hk1 hkn hki
          have hkj : q.idx k ≠ q.idx (q.maxchild i) := by
            intro hEq
            rw [hEq, hjpos] at h3
            exact hkc h3.symm
          rw [if_neg hkj]
          exact ⟨h1, h2, h3⟩
      case hB' =>
        dsimp only
        intro m hmn hmm
        simp only [upd_apply, apply_ite pqnode.pos, apply_ite pqnode.pri, pqnode_mk_pri,
          pqnode_mk_pos]
        by_cases hmj : m = q.idx (q.maxchild i)
        · rw [if_pos hmj]
          refine ⟨by omega, by omega, by omega, ?_⟩
          rw [if_pos rfl]
          exact hmj.symm
        · rw [if_neg hmj]
          obtain ⟨h1, h2, h3, h4⟩ := hB m hmn hmm
          have hposc : (q.nodes m).pos ≠ q.maxchild i := by
            intro hEq
            rw [hEq] at h4
            exact hmj h4.symm
          refine ⟨h1, h2, hposc, ?_⟩
          rw [if_neg h3]
          exact h4
      case hheap' =>
        dsimp only
        intro k hk2 hkn hr2 hkhc hkc
        simp only [hpriAll]
        simp only [upd_apply]
        by_cases hki : k = i
        · have hkhi : k / 2 ≠ i := by omega
          rw [if_neg hkhi, if_pos hki, hki]
          exact (hpar (by omega) (by omega)).2 (q.maxchild i) hcch hcn
        · rw [if_neg hki]
          by_cases hkhi : k / 2 = i
          · rw [if_pos hkhi]
            exact hcdom k (by omega) hkn
          · rw [if_neg hkhi]
            exact hheap k hk2 hkn hr2 hkhi hki
      case hpar' =>
        dsimp only
        intro hc2 hrc
        simp only [hpriAll]
        rw [hchalf]
        simp only [upd_apply, if_pos rfl]
        constructor
        · exact pqLt_dom hlt
        · rintro cc (rfl | rfl) hccn
          · have hcc2 : 2 * q.maxchild i / 2 = q.maxchild i := by omega
            have h := hheap (2 * q.maxchild i) (by omega) hccn (by omega) (by omega)
              (by omega)
            rw [hcc2] at h
            rw [if_neg (by omega : 2 * q.maxchild i ≠ i)]
            exact h
          · have hcc2 : (2 * q.maxchild i + 1) / 2 = q.maxchild i := by omega
            have h := hheap (2 * q.maxchild i + 1) (by omega) hccn (by omega) (by omega)
              (by omega)
            rw [hcc2] at h
            rw [if_neg (by omega : 2 * q.maxchild i + 1 ≠ i)]
            exact h
      refine ⟨main.1, main.2.1, ?_, ?_⟩
      · intro m
        rw [main.2.2.1 m]
        dsimp only
        exact hpriAll m
      · rw [main.2.2.2]
    · rename_i hcond
      rw [Classical.not_and_iff_or_not_not] at hcond
      have hpriAll : ∀ x,
          (upd q.nodes moving ⟨(q.nodes moving).pri, i⟩ x).pri = (q.nodes x).pri := by
        intro x
        rw [upd_pri]
        split
        · rename_i h
          rw [h]
        · rfl
      refine ⟨⟨?_, ?_⟩, ?_, ?_, rfl⟩
      · intro k hk1 hkn
        dsimp only at hkn ⊢
        simp only [upd_apply, apply_ite pqnode.pos, apply_ite pqnode.pri, pqnode_mk_pri,
          pqnode_mk_pos]
        by_cases hki : k = i
        · rw [if_pos hki, if_pos rfl]
          exact ⟨hm, hki.symm⟩
        · rw [if_neg hki]
          obtain ⟨h1, h2, h3⟩ := hA k hk1 hkn hki
          rw [if_neg h2]
          exact ⟨h1, h3⟩
      · intro m hmn
        dsimp only at hmn ⊢
        simp only [upd_apply, apply_ite pqnode.pos, apply_ite pqnode.pri, pqnode_mk_pri,
          pqnode_mk_pos]
        by_cases hmm : m = moving
        · rw [if_pos hmm]
          refine ⟨by omega, hin, ?_⟩
          rw [if_pos rfl]
          exact hmm.symm
        · rw [if_neg hmm]
          obtain ⟨h1, h2, h3, h4⟩ := hB m hmn hmm
          refine ⟨h1, h2, ?_⟩
          rw [if_neg h3]
          exact h4
      · intro k hk2 hkn hr2
        dsimp only at hkn ⊢
        simp only [hpriAll]
        simp only [upd_apply]
        by_cases hki : k = i
        · have hkhi : k / 2 ≠ i := by omega
          rw [if_neg hkhi, if_pos hki, hpri, hki]
          exact (hpar (by omega) (by omega)).1
        · rw [if_neg hki]
          by_cases hkhi : k / 2 = i
          · rw [if_pos hkhi]
            rw [hpri]
            have hcne : q.maxchild i ≠ 0 := by
              intro h0
              have := hmc0.mp h0
              omega
            obtain ⟨hcch, hcn, hcdom⟩ := hmcS hcne
            have hdomc : pqDom mpri (q.nodes (q.idx (q.maxchild i))).pri := by
              rcases hcond with h | h
              · exact absurd hcne h
              · exact (pqDom_iff_not_lt _ _).mpr h
            exact pqDom_trans hdomc (hcdom k (by omega) hkn)
          · rw [if_neg hkhi]
            exact hheap k hk2 hkn hr2 hkhi hki
      · intro m
        dsimp only
        exact hpriAll m

/-- `sift_up` on a coherent state whose heap order may only be broken on the
edges touching slot `i`, provided the grandparent of `i` dominates `i`'s
children, restores full coherence and heap order, preserving priorities. -/
theorem sift_up_spec (q : pqueue K) (i : ℕ) (hi1 : 1 ≤ i) (hin : i ≤ q.n)
    (hcoh : q.Coh)
    (hheap : ∀ k, 2 ≤ k → k ≤ q.n → k ≠ i →
      pqDom (q.nodes (q.idx (k / 2))).pri (q.nodes (q.idx k)).pri)
    (hbridge : 1 < i → ∀ c, (c = 2 * i ∨ c = 2 * i + 1) → c ≤ q.n →
      pqDom (q.nodes (q.idx (i / 2))).pri (q.nodes (q.idx c)).pri) :
    (q.sift_up i).Coh ∧ (q.sift_up i).HeapAt 1 ∧
    (∀ m, ((q.sift_up i).nodes m).pri = (q.nodes m).pri) ∧ (q.sift_up i).n = q.n := by
  obtain ⟨hC1, hC2⟩ := hcoh
  obtain ⟨hilt, hipos⟩ := hC1 i hi1 hin
  unfold pqueue.sift_up
  refine siftUpAux_spec i q (q.idx i) (q.nodes (q.idx i)).pri hi1 hin hilt rfl ?_ ?_ ?_
    hbridge
  · intro k hk1 hkn hki
    obtain ⟨h1, h2⟩ := hC1 k hk1 hkn
    refine ⟨h1, ?_, h2⟩
    intro hEq
    rw [hEq, hipos] at h2
    exact hki h2.symm
  · intro m hmn hmm
    obtain ⟨h1, h2, h3⟩ := hC2 m hmn
    refine ⟨h1, h2, ?_, h3⟩
    intro hEq
    rw [hEq] at h3
    exact hmm h3.symm
  · intro k hk2 hkn hki
    by_cases hkhi : k / 2 = i
    · rw [if_pos hkhi, ← hkhi]
      exact hheap k hk2 hkn hki
    · rw [if_neg hkhi]
      exact hheap k hk2 hkn hki

/-- `sift_down` on a coherent state whose heap order on the region of slots
`≥ r` may only be broken on the edges leaving slot `i`, provided `i`'s parent
(when in the region) dominates both `i` and `i`'s children, restores
coherence and region heap order, preserving priorities. -/
theorem sift_down_spec (q : pqueue K) (i r : ℕ) (hr1 : 1 ≤ r) (hri : r ≤ i)
    (hin : i ≤ q.n) (hcoh : q.Coh)
    (hheap : ∀ k, 2 ≤ k → k ≤ q.n → r ≤ k / 2 → k / 2 ≠ i → k ≠ i →
      pqDom (q.nodes (q.idx (k / 2))).pri (q.nodes (q.idx k)).pri)
    (hpar : 2 ≤ i → r ≤ i / 2 →
      pqDom (q.nodes (q.idx (i / 2))).pri (q.nodes (q.idx i)).pri ∧
      ∀ c, (c = 2 * i ∨ c = 2 * i + 1) → c ≤ q.n →
        pqDom (q.nodes (q.idx (i / 2))).pri (q.nodes (q.idx c)).pri) :
    (q.sift_down i).Coh ∧ (q.sift_down i).HeapAt r ∧
    (∀ m, ((q.sift_down i).nodes m).pri = (q.nodes m).pri) ∧ (q.sift_down i).n = q.n := by
  obtain ⟨hC1, hC2⟩ := hcoh
  obtain ⟨hilt, hipos⟩ := hC1 i (by omega) hin
  unfold pqueue.sift_down
  refine siftDownAux_spec (q.n + 1) i q (q.idx i) (q.nodes (q.idx i)).pri r (by omega)
    hr1 hri hin hilt rfl ?_ ?_ hheap hpar
  · intro k hk1 hkn hki
    obtain ⟨h1, h2⟩ := hC1 k hk1 hkn
    refine ⟨h1, ?_, h2⟩
    intro hEq
    rw [hEq, hipos] at h2
    exact hki h2.symm
  · intro m hmn hmm
    obtain ⟨h1, h2, h3⟩ := hC2 m hmn
    refine ⟨h1, h2, ?_, h3⟩
    intro hEq
    rw [hEq] at h3
    exact hmm h3.symm

/-- The `heapify` loop, peeled from the bottom: sifting down slots
`s, s-1, ..., 1` on a coherent state that is already heap-ordered below slot
`s` yields a fully heap-ordered coherent state, preserving priorities. -/
theorem heapify_aux :
    ∀ (s : ℕ) (q : pqueue K), s ≤ q.n → q.Coh → q.HeapAt (s + 1) →
      (((List.range s).foldr (fun k q1 => q1.sift_down (k + 1)) q).Coh ∧
       ((List.range s).foldr (fun k q1 => q1.sift_down (k + 1)) q).HeapAt 1 ∧
       (∀ m, (((List.range s).foldr (fun k q1 => q1.sift_down (k + 1)) q).nodes m).pri =
         (q.nodes m).pri) ∧
       ((List.range s).foldr (fun k q1 => q1.sift_down (k + 1)) q).n = q.n) := by
  intro s
  induction s with
  | zero =>
    intro q hs hcoh hheap
    exact ⟨hcoh, hheap, fun m => rfl, rfl⟩
  | succ s ih =>
    intro q hs hcoh hheap
    rw [List.range_succ, List.foldr_append]
    dsimp only [List.foldr]
    have hstep := sift_down_spec q (s + 1) (s + 1) (by omega) (le_refl _) (by omega) hcoh
      ?hh ?hp
    case hh =>
      intro k hk2 hkn hrk hkhi hki
      exact hheap k hk2 hkn (by omega)
    case hp =>
      intro h2 hri2
      exact absurd hri2 (by omega)
    obtain ⟨c1, c2, c3, c4⟩ := ih (q.sift_down (s + 1))
      (by rw [hstep.2.2.2]; omega) hstep.1 hstep.2.1
    refine ⟨c1, c2, ?_, by rw [c4, hstep.2.2.2]⟩
    intro m
    rw [c3 m, hstep.2.2.1 m]

/-- The heap constructor from a vector of priorities: the result is coherent,
heap-ordered, of the same size, and carries exactly the given priorities. -/
theorem build_spec (l : List (pq_entry K)) :
    (pqueue.build l).Coh ∧ (pqueue.build l).HeapAt 1 ∧
    (∀ m, ((pqueue.build l).nodes m).pri = l.getD m default) ∧
    (pqueue.build l).n = l.length := by
  unfold pqueue.build pqueue.heapify
  have h := heapify_aux (K := K) ((l.length + 1) / 2)
    { nodes := fun m => ⟨l.getD m default, m + 1⟩,
      idx := fun k => k - 1, n := l.length }
    (by dsimp only; omega) ?hc ?hh
  case hc =>
    constructor
    · intro k hk1 hkn
      dsimp only at hkn ⊢
      exact ⟨by omega, by omega⟩
    · intro m hmn
      dsimp only at hmn ⊢
      exact ⟨by omega, by omega, by omega⟩
  case hh =>
    intro k hk2 hkn hrk
    dsimp only at hkn hrk
    exact absurd hrk (by omega)
  exact h

/-- In a coherent heap-ordered queue, `top` is a valid element id whose entry
dominates every element's entry. -/
theorem top_dominates (q : pqueue K) (hcoh : q.Coh) (hheap : q.HeapAt 1)
    (hn : 1 ≤ q.n) :
    q.top < q.n ∧ ∀ m, m < q.n → pqDom (q.nodes q.top).pri (q.nodes m).pri := by
  obtain ⟨hC1, hC2⟩ := hcoh
  have hslot : ∀ k, 1 ≤ k → k ≤ q.n →
      pqDom (q.nodes (q.idx 1)).pri (q.nodes (q.idx k)).pri := by
    intro k
    induction k using Nat.strong_induction_on with
    | _ k ihk =>
      intro hk1 hkn
      by_cases hk : k = 1
      · rw [hk]
        exact pqDom_refl _
      · have hedge := hheap k (by omega) hkn (by omega)
        have hih := ihk (k / 2) (by omega) (by omega) (by omega)
        exact pqDom_trans hih hedge
  constructor
  · exact (hC1 1 (le_refl _) hn).1
  · intro m hmn
    obtain ⟨h1, h2, h3⟩ := hC2 m hmn
    have h := hslot ((q.nodes m).pos) h1 h2
    rw [h3] at h
    exact h

/-- `set_priority` on a coherent heap-ordered queue with a valid element id
keeps the queue coherent and heap-ordered, updates exactly that element's
priority, and preserves the size. -/
theorem set_priority_spec (q : pqueue K) (newp : pq_entry K) (p : ℕ)
    (hcoh : q.Coh) (hheap : q.HeapAt 1) (hp : p < q.n) :
    (q.set_priority newp p).Coh ∧ (q.set_priority newp p).HeapAt 1 ∧
    (∀ m, ((q.set_priority newp p).nodes m).pri =
      (if m = p then newp else (q.nodes m).pri)) ∧
    (q.set_priority newp p).n = q.n := by
  obtain ⟨hC1, hC2⟩ := hcoh
  obtain ⟨hp1, hp2, hp3⟩ := hC2 p hp
  have hq1pri : ∀ m, (upd q.nodes p ⟨newp, (q.nodes p).pos⟩ m).pri =
      if m = p then newp else (q.nodes m).pri := by
    intro m
    rw [upd_pri, pqnode_mk_pri]
  have hq1pos : ∀ m, (upd q.nodes p ⟨newp, (q.nodes p).pos⟩ m).pos = (q.nodes m).pos := by
    intro m
    rw [upd_pos, pqnode_mk_pos]
    split
    · rename_i h
      rw [h]
    · rfl
  have hidxp : ∀ k, 1 ≤ k → k ≤ q.n → q.idx k = p → k = (q.nodes p).pos := by
    intro k hk1 hkn hEq
    have h2 := (hC1 k hk1 hkn).2
    rw [hEq] at h2
    exact h2.symm
  have hq1coh : pqueue.Coh { q with nodes := upd q.nodes p ⟨newp, (q.nodes p).pos⟩ } := by
    constructor
    · intro k hk1 hkn
      dsimp only at hkn ⊢
      rw [hq1pos]
      exact hC1 k hk1 hkn
    · intro m hmn
      dsimp only at hmn ⊢
      rw [hq1pos]
      exact hC2 m hmn
  unfold pqueue.set_priority
  dsimp only
  split
  · rename_i hlt
    have hdom : pqDom newp (q.nodes p).pri := pqLt_dom hlt
    have hstep := sift_up_spec
      { q with nodes := upd q.nodes p ⟨newp, (q.nodes p).pos⟩ }
      ((q.nodes p).pos) hp1 hp2 hq1coh ?hh ?hb
    case hh =>
      dsimp only
      intro k hk2 hkn hkp
      rw [hq1pri, hq1pri]
      have hkne : q.idx k ≠ p := fun hEq => hkp (hidxp k (by omega) hkn hEq)
      rw [if_neg hkne]
      by_cases hkh : q.idx (k / 2) = p
      · rw [if_pos hkh]
        have hkhp : k / 2 = (q.nodes p).pos := hidxp (k / 2) (by omega) (by omega) hkh
        have hedge := hheap k hk2 hkn (by omega)
        rw [hkhp, hp3] at hedge
        exact pqDom_trans hdom hedge
      · rw [if_neg hkh]
        exact hheap k hk2 hkn (by omega)
    case hb =>
      dsimp only
      intro hgt c hc hcn
      rw [hq1pri, hq1pri]
      have hphalf : (q.nodes p).pos / 2 < (q.nodes p).pos := by omega
      have hgne : q.idx ((q.nodes p).pos / 2) ≠ p := by
        intro hEq
        have := hidxp ((q.nodes p).pos / 2) (by omega) (by omega) hEq
        omega
      have hcne : q.idx c ≠ p := by
        intro hEq
        have := hidxp c (by omega) hcn hEq
        omega
      rw [if_neg hgne, if_neg hcne]
      have he1 := hheap ((q.nodes p).pos) (by omega) hp2 (by omega)
      rw [hp3] at he1
      have he2 := hheap c (by omega) hcn (by omega)
      rw [(by omega : c / 2 = (q.nodes p).pos), hp3] at he2
      exact pqDom_trans (pqDom_trans he1 he2) (pqDom_refl _)
    refine ⟨hstep.1, hstep.2.1, ?_, hstep.2.2.2⟩
    intro m
    rw [hstep.2.2.1 m]
    dsimp only
    exact hq1pri m
  · rename_i hnlt
    have hdom : pqDom (q.nodes p).pri newp := (pqDom_iff_not_lt _ _).mpr hnlt
    have hstep := sift_down_spec
      { q with nodes := upd q.nodes p ⟨newp, (q.nodes p).pos⟩ }
      ((q.nodes p).pos) 1 (le_refl _) hp1 hp2 hq1coh ?hh ?hp
    case hh =>
      dsimp only
      intro k hk2 hkn hr2 hkhp hkp
      rw [hq1pri, hq1pri]
      have hkne : q.idx k ≠ p := fun hEq => hkp (hidxp k (by omega) hkn hEq)
      have hkhne : q.idx (k / 2) ≠ p := fun hEq => hkhp (hidxp (k / 2) (by omega) (by omega) hEq)
      rw [if_neg hkne, if_neg hkhne]
      exact hheap k hk2 hkn (by omega)
    case hp =>
      dsimp only
      intro hgt hr2
      have hphalf : (q.nodes p).pos / 2 < (q.nodes p).pos := by omega
      have hgne : q.idx ((q.nodes p).pos / 2) ≠ p := by
        intro hEq
        have := hidxp ((q.nodes p).pos / 2) (by omega) (by omega) hEq
        omega
      have he1 := hheap ((q.nodes p).pos) (by omega) hp2 (by omega)
      rw [hp3] at he1
      constructor
      · rw [hq1pri, hq1pri, if_neg hgne, if_pos hp3]
        exact pqDom_trans he1 hdom
      · intro c hc hcn
        rw [hq1pri, hq1pri]
        have hcne : q.idx c ≠ p := by
          intro hEq
          have := hidxp c (by omega) hcn hEq
          omega
        rw [if_neg hgne, if_neg hcne]
        have he2 := hheap c (by omega) hcn (by omega)
        rw [(by omega : c / 2 = (q.nodes p).pos), hp3] at he2
        exact pqDom_trans he1 he2
    refine ⟨hstep.1, hstep.2.1, ?_, hstep.2.2.2⟩
    intro m
    rw [hstep.2.2.1 m]
    dsimp only
    exact hq1pri m

/-- Folding a list of `set_priority` updates with valid element ids over a
coherent heap-ordered queue keeps it coherent, heap-ordered and of the same
size. -/
theorem set_fold_spec :
    ∀ (ops : List (pq_entry K × ℕ)) (q : pqueue K) (L : ℕ),
      q.Coh → q.HeapAt 1 → q.n = L → (∀ op ∈ ops, op.2 < L) →
      ((ops.foldl (fun qq op => qq.set_priority op.1 op.2) q).Coh ∧
       (ops.foldl (fun qq op => qq.set_priority op.1 op.2) q).HeapAt 1 ∧
       (ops.foldl (fun qq op => qq.set_priority op.1 op.2) q).n = L) := by
  intro ops
  induction ops with
  | nil =>
    intro q L h1 h2 h3 hb
    exact ⟨h1, h2, h3⟩
  | cons op rest ih =>
    intro q L h1 h2 h3 hb
    dsimp only [List.foldl]
    have hs := set_priority_spec q op.1 op.2 h1 h2
      (by rw [h3]; exact hb op (List.mem_cons_self _ _))
    exact ih _ L hs.1 hs.2.1 (by rw [hs.2.2.2, h3])
      (fun o ho => hb o (List.mem_cons_of_mem _ ho))

/-- C5: for every initial vector of entries and every finite sequence of
`set_priority` updates with valid element ids, `top` returns a valid element
id whose current entry has the smallest `pri` among all entries and, among
those, the largest `prox` (expressed by `pqDom`); in particular building with
`[(prox 1, pri 5), (prox 2, pri 5), (prox 0, pri 3)]` gives `top = 2`, and
after `set_priority (prox 0, pri 10) 2` gives `top = 1`. -/
theorem C5_priority_queue_semantics :
    (∀ (l : List (pq_entry ℚ)) (ops : List (pq_entry ℚ × ℕ)),
      1 ≤ l.length → (∀ op ∈ ops, op.2 < l.length) →
      ((ops.foldl (fun qq op => qq.set_priority op.1 op.2) (pqueue.build l)).top <
        l.length ∧
       ∀ m, m < l.length →
         pqDom
           ((ops.foldl (fun qq op => qq.set_priority op.1 op.2)
              (pqueue.build l)).priority
             ((ops.foldl (fun qq op => qq.set_priority op.1 op.2)
                (pqueue.build l)).top))
           ((ops.foldl (fun qq op => qq.set_priority op.1 op.2)
              (pqueue.build l)).priority m))) ∧
    (pqueue.build ([⟨1, 5⟩, ⟨2, 5⟩, ⟨0, 3⟩] : List (pq_entry ℚ))).top = 2 ∧
    ((pqueue.build ([⟨1, 5⟩, ⟨2, 5⟩, ⟨0, 3⟩] : List (pq_entry ℚ))).set_priority
        ⟨0, 10⟩ 2).top = 1 := by
  obtain ⟨hbC, hbH, hbP, hbN⟩ := build_spec ([⟨1, 5⟩, ⟨2, 5⟩, ⟨0, 3⟩] : List (pq_entry ℚ))
  refine ⟨?_, ?_, ?_⟩
  · intro l ops hl hops
    obtain ⟨bC, bH, bP, bN⟩ := build_spec l
    obtain ⟨fC, fH, fN⟩ := set_fold_spec ops (pqueue.build l) l.length bC bH bN hops
    obtain ⟨t1, t2⟩ := top_dominates _ fC fH (by rw [fN]; omega)
    rw [fN] at t1
    refine ⟨t1, ?_⟩
    intro m hm
    exact t2 m (by rw [fN]; exact hm)
  · obtain ⟨t1, t2⟩ := top_dominates _ hbC hbH (by rw [hbN]; norm_num)
    rw [hbN] at t1
    have hT : (pqueue.build ([⟨1, 5⟩, ⟨2, 5⟩, ⟨0, 3⟩] : List (pq_entry ℚ))).top = 0 ∨
        (pqueue.build ([⟨1, 5⟩, ⟨2, 5⟩, ⟨0, 3⟩] : List (pq_entry ℚ))).top = 1 ∨
        (pqueue.build ([⟨1, 5⟩, ⟨2, 5⟩, ⟨0, 3⟩] : List (pq_entry ℚ))).top = 2 := by
      norm_num at t1
      omega
    rcases hT with hT | hT | hT
    · exfalso
      have hd := t2 2 (by rw [hbN]; norm_num)
      rw [hT, hbP 0, hbP 2] at hd
      norm_num [pqDom, List.getD] at hd
    · exfalso
      have hd := t2 2 (by rw [hbN]; norm_num)
      rw [hT, hbP 1, hbP 2] at hd
      norm_num [pqDom, List.getD] at hd
    · exact hT
  · have hp2 : (2 : ℕ) < (pqueue.build ([⟨1, 5⟩, ⟨2, 5⟩, ⟨0, 3⟩] : List (pq_entry ℚ))).n := by
      rw [hbN]
      norm_num
    obtain ⟨sC, sH, sP, sN⟩ := set_priority_spec _ ⟨0, 10⟩ 2 hbC hbH hp2
    obtain ⟨t1, t2⟩ := top_dominates _ sC sH (by rw [sN, hbN]; norm_num)
    rw [sN, hbN] at t1
    have hT : ((pqueue.build ([⟨1, 5⟩, ⟨2, 5⟩, ⟨0, 3⟩] : List (pq_entry ℚ))).set_priority
          ⟨0, 10⟩ 2).top = 0 ∨
        ((pqueue.build ([⟨1, 5⟩, ⟨2, 5⟩, ⟨0, 3⟩] : List (pq_entry ℚ))).set_priority
          ⟨0, 10⟩ 2).top = 1 ∨
        ((pqueue.build ([⟨1, 5⟩, ⟨2, 5⟩, ⟨0, 3⟩] : List (pq_entry ℚ))).set_priority
          ⟨0, 10⟩ 2).top = 2 := by
      norm_num at t1
      omega
    rcases hT with hT | hT | hT
    · exfalso
      have hd := t2 1 (by rw [sN, hbN]; norm_num)
      rw [hT, sP 0, sP 1] at hd
      rw [hbP 0, hbP 1] at hd
      norm_num [pqDom, List.getD] at hd
    · exact hT
    · exfalso
      have hd := t2 0 (by rw [sN, hbN]; norm_num)
      rw [hT, sP 2, sP 0] at hd
      rw [hbP 0] at hd
      norm_num [pqDom, List.getD] at hd

/-- C5 witness: the general statement applied to the concrete three-entry
vector with an empty update sequence. -/
theorem C5_priority_queue_semantics_witness :
    (([] : List (pq_entry ℚ × ℕ)).foldl (fun qq op => qq.set_priority op.1 op.2)
        (pqueue.build [⟨1, 5⟩, ⟨2, 5⟩, ⟨0, 3⟩])).top <
      ([⟨1, 5⟩, ⟨2, 5⟩, ⟨0, 3⟩] : List (pq_entry ℚ)).length ∧
    ∀ m, m < ([⟨1, 5⟩, ⟨2, 5⟩, ⟨0, 3⟩] : List (pq_entry ℚ)).length →
      pqDom
        ((([] : List (pq_entry ℚ × ℕ)).foldl (fun qq op => qq.set_priority op.1 op.2)
            (pqueue.build [⟨1, 5⟩, ⟨2, 5⟩, ⟨0, 3⟩])).priority
          ((([] : List (pq_entry ℚ × ℕ)).foldl (fun qq op => qq.set_priority op.1 op.2)
              (pqueue.build [⟨1, 5⟩, ⟨2, 5⟩, ⟨0, 3⟩])).top))
        ((([] : List (pq_entry ℚ × ℕ)).foldl (fun qq op => qq.set_priority op.1 op.2)
            (pqueue.build [⟨1, 5⟩, ⟨2, 5⟩, ⟨0, 3⟩])).priority m) :=
  C5_priority_queue_semantics.1 [⟨1, 5⟩, ⟨2, 5⟩, ⟨0, 3⟩] [] (by norm_num) (by simp)

/-! ### `cleanup` and the assignment strategies (C7, C8) -/

theorem dsq_comm (a b : vec2 K) : a.dsq b = b.dsq a := by
  unfold vec2.dsq
  ring

theorem dsq_self (a : vec2 K) : a.dsq a = 0 := by
  unfold vec2.dsq
  ring

/-- The stripping fold of `cleanup` (both phases use this shape): removing a
value `v` from the lists indexed by a duplicate-free list `L`, where each
such list holds `v` exactly once, succeeds and filters `v` out of exactly
those lists. -/
theorem strip_fold_spec (v : ℕ) :
    ∀ (L : List ℕ) (A0 : ℕ → List ℕ), L.Nodup →
      (∀ t ∈ L, (A0 t).count v = 1) →
      L.foldlM (fun A c => (stripout (A c) v).map (fun l => upd A c l)) A0 =
        some (fun t => if t ∈ L then (A0 t).filter (fun x => x ≠ v) else A0 t) := by
  intro L
  induction L with
  | nil =>
    intro A0 _ _
    simp only [List.foldlM_nil]
    congr 1
  | cons c L2 ih =>
    intro A0 hnd h1
    rw [List.nodup_cons] at hnd
    obtain ⟨hcL, hnd2⟩ := hnd
    rw [List.foldlM_cons]
    have hs : stripout (A0 c) v = some ((A0 c).filter (fun x => x ≠ v)) := by
      unfold stripout
      rw [if_pos (h1 c (List.mem_cons_self _ _))]
    rw [hs]
    simp only [Option.map_some', Option.bind_eq_bind, Option.some_bind]
    rw [ih (upd A0 c ((A0 c).filter (fun x => x ≠ v))) hnd2 ?_]
    · congr 1
      funext t
      by_cases ht2 : t ∈ L2
      · rw [if_pos ht2, if_pos (List.mem_cons_of_mem _ ht2)]
        have htc : t ≠ c := fun h => hcL (h ▸ ht2)
        rw [upd_apply, if_neg htc]
      · rw [if_neg ht2]
        by_cases htc : t = c
        · rw [upd_apply, if_pos htc, htc, if_pos (List.mem_cons_self _ _)]
        · rw [upd_apply, if_neg htc, if_neg ?_]
          rw [List.mem_cons]
          rintro (h | h)
          · exact htc h
          · exact ht2 h
    · intro t ht2
      have htc : t ≠ c := fun h => hcL (h ▸ ht2)
      rw [upd_apply, if_neg htc]
      exact h1 t (List.mem_cons_of_mem _ ht2)

/-- The second phase of `cleanup`: removing every target of a duplicate-free
query result `tmp` from a pair of mutually inverse duplicate-free mappings
succeeds, filters those targets out of every `f2t` list and empties their
`t2f` lists. -/
theorem phase2_spec :
    ∀ (tmp : List ℕ) (F T : ℕ → List ℕ), tmp.Nodup →
      (∀ f, (F f).Nodup) → (∀ t, (T t).Nodup) →
      (∀ f t, f ∈ T t ↔ t ∈ F f) →
      tmp.foldlM
        (fun (p : (ℕ → List ℕ) × (ℕ → List ℕ)) i => do
          let f2tN ← (p.2 i).foldlM
            (fun f2tA j => (stripout (f2tA j) i).map (fun l => upd f2tA j l)) p.1
          pure (f2tN, upd p.2 i []))
        (F, T) =
      some (fun f => (F f).filter (fun j => ¬ j ∈ tmp),
            fun t => if t ∈ tmp then [] else T t) := by
  intro tmp
  induction tmp with
  | nil =>
    intro F T _ _ _ _
    simp only [List.foldlM_nil]
    rw [show (fun f => (F f).filter (fun j => ¬ j ∈ ([] : List ℕ))) = F from
      funext (fun f => List.filter_eq_self.mpr (fun a _ => by simp))]
    rfl
  | cons i tmp2 ih =>
    intro F T hnd hFnd hTnd hbij
    rw [List.nodup_cons] at hnd
    obtain ⟨hiL, hnd2⟩ := hnd
    rw [List.foldlM_cons]
    dsimp only
    rw [strip_fold_spec i (T i) F (hTnd i)
      (fun j hj => List.count_eq_one_of_mem (hFnd j) ((hbij j i).mp hj))]
    have hF2nd : ∀ f,
        ((fun t => if t ∈ T i then (F t).filter (fun x => x ≠ i) else F t) f).Nodup := by
      intro f
      dsimp only
      split
      · exact (hFnd f).filter _
      · exact hFnd f
    have hT2nd : ∀ t, ((upd T i []) t).Nodup := by
      intro t
      rw [upd_apply]
      split
      · exact List.nodup_nil
      · exact hTnd t
    have hbij2 : ∀ f t, f ∈ (upd T i []) t ↔
        t ∈ (fun t => if t ∈ T i then (F t).filter (fun x => x ≠ i) else F t) f := by
      intro f t
      dsimp only
      rw [upd_apply]
      by_cases hti : t = i
      · rw [if_pos hti, hti]
        simp only [List.not_mem_nil, false_iff]
        split
        · rw [List.mem_filter]
          rintro ⟨-, h⟩
          simp at h
        · rename_i hf
          intro h
          exact hf ((hbij f i).mpr h)
      · rw [if_neg hti]
        split
        · rw [List.mem_filter]
          constructor
          · intro h
            exact ⟨(hbij f t).mp h, by simpa using hti⟩
          · rintro ⟨h, -⟩
            exact (hbij f t).mpr h
        · exact hbij f t
    have hih := ih _ _ hnd2 hF2nd hT2nd hbij2
    refine Eq.trans hih ?_
    congr 1
    congr 1
    · funext f
      dsimp only
      by_cases hf : f ∈ T i
      · rw [if_pos hf, List.filter_filter]
        apply List.filter_congr
        intro a _
        simp only [List.mem_cons, not_or, decide_not]
        rw [Bool.and_comm]
        simp
      · rw [if_neg hf]
        apply List.filter_congr
        intro a ha
        have hai : a ≠ i := by
          intro h
          exact hf ((hbij f i).mpr (h ▸ ha))
        simp [List.mem_cons, hai]
    · funext t
      by_cases h1 : t ∈ tmp2
      · rw [if_pos h1, if_pos (List.mem_cons_of_mem _ h1)]
      · rw [if_neg h1, upd_apply]
        by_cases hti : t = i
        · rw [if_pos hti, if_pos (by rw [List.mem_cons]; exact Or.inl hti)]
        · rw [if_neg hti, if_neg ?_]
          rw [List.mem_cons]
          rintro (h | h)
          · exact hti h
          · exact h1 h

/-- Membership characterization of the `f2t` mapping built by `calcMappings`
over the raster the strategies construct. -/
theorem calc_f2t_mem (tgt : List (Target ℝ)) (f j : ℕ) :
    j ∈ (calcMappings tgt (tgt2raster tgt 100 100)).f2t f ↔
      f < nfiber ∧ j < tgt.length ∧
      (id2fiberpos f).dsq (tgt.getD j default).pos ≤ rmax * rmax ∧
      dotdist * dotdist ≤ (id2dotpos f).dsq (tgt.getD j default).pos := by
  simp only [calcMappings]
  by_cases hf : f < nfiber
  · rw [if_pos hf, List.mem_filter,
      mem_tgt_query tgt ((by norm_num [rmax] : (0 : ℝ) ≤ rmax)) (id2fiberpos f) j]
    simp only [decide_eq_true_eq]
    constructor
    · rintro ⟨⟨h1, h2⟩, h3⟩
      exact ⟨hf, h1, h2, h3⟩
    · rintro ⟨-, h1, h2, h3⟩
      exact ⟨⟨h1, h2⟩, h3⟩
  · rw [if_neg hf]
    simp [hf]

theorem calc_f2t_nodup (tgt : List (Target ℝ)) (f : ℕ) :
    ((calcMappings tgt (tgt2raster tgt 100 100)).f2t f).Nodup := by
  simp only [calcMappings]
  split
  · exact (tgt_query_nodup tgt (by norm_num [rmax]) _).filter _
  · exact List.nodup_nil

/-- Membership characterization of the inverse mapping `t2f` built by
`calcMappings`. -/
theorem calc_t2f_mem (tgt : List (Target ℝ)) (i t : ℕ) :
    i ∈ (calcMappings tgt (tgt2raster tgt 100 100)).t2f t ↔
      i < nfiber ∧ t ∈ (calcMappings tgt (tgt2raster tgt 100 100)).f2t i := by
  show i ∈ (List.range nfiber).flatMap
      (fun i2 => List.replicate (((calcMappings tgt
        (tgt2raster tgt 100 100)).f2t i2).count t) i2) ↔ _
  rw [List.mem_flatMap]
  constructor
  · rintro ⟨i2, hi2, hrep⟩
    rw [List.mem_replicate] at hrep
    obtain ⟨hc, rfl⟩ := hrep
    refine ⟨List.mem_range.mp hi2, ?_⟩
    by_contra hnm
    exact hc (List.count_eq_zero.mpr hnm)
  · rintro ⟨hi, hm⟩
    refine ⟨i, List.mem_range.mpr hi, ?_⟩
    rw [List.mem_replicate]
    exact ⟨by rw [Ne, List.count_eq_zero]; exact fun h => h hm, rfl⟩

theorem calc_t2f_nodup (tgt : List (Target ℝ)) (t : ℕ) :
    ((calcMappings tgt (tgt2raster tgt 100 100)).t2f t).Nodup := by
  show ((List.range nfiber).flatMap
      (fun i2 => List.replicate (((calcMappings tgt
        (tgt2raster tgt 100 100)).f2t i2).count t) i2)).Nodup
  apply List.nodup_flatMap.mpr
  constructor
  · intro i _
    rw [List.nodup_replicate]
    exact List.nodup_iff_count_le_one.mp (calc_f2t_nodup tgt i) t
  · apply List.Pairwise.imp_of_mem ?_ (List.pairwise_lt_range _)
    intro a b _ _ hab x hxa hxb
    rw [List.mem_replicate] at hxa hxb
    omega

/-- `calcMappings` establishes the full invariant with no committed targets
or fibers. -/
theorem calcMappings_inv (tgt : List (Target ℝ)) :
    MapInv tgt [] [] (calcMappings tgt (tgt2raster tgt 100 100)) := by
  refine ⟨?_, ?_, ?_, ?_, ?_, ?_⟩
  · intro i j hj
    obtain ⟨h1, h2, -⟩ := (calc_f2t_mem tgt i j).mp hj
    exact ⟨h1, h2⟩
  · exact calc_f2t_nodup tgt
  · exact calc_t2f_nodup tgt
  · intro i j
    rw [calc_t2f_mem]
    constructor
    · rintro ⟨-, h⟩
      exact h
    · intro h
      exact ⟨((calc_f2t_mem tgt i j).mp h).1, h⟩
  · intro i j _ t ht
    exact absurd ht (List.not_mem_nil t)
  · intro f hf
    exact absurd hf (List.not_mem_nil f)

/-- Under the duplicate-freedom and bijection parts of the invariant, a
`cleanup` call succeeds with the closed-form result (every `stripout`
assertion holds). -/
theorem cleanup_eq (tgt : List (Target ℝ)) (s : MapState) (fiber itgt : ℕ)
    (hFnd : ∀ f, (s.f2t f).Nodup) (hTnd : ∀ t, (s.t2f t).Nodup)
    (hbij : ∀ f t, f ∈ s.t2f t ↔ t ∈ s.f2t f) :
    cleanup tgt (tgt2raster tgt 100 100) s fiber itgt =
      some ⟨cleanF s fiber
              ((tgt2raster tgt 100 100).query (tgt.getD itgt default).pos colldist),
            cleanT s fiber
              ((tgt2raster tgt 100 100).query (tgt.getD itgt default).pos colldist)⟩ := by
  unfold cleanup
  rw [strip_fold_spec fiber (s.f2t fiber) s.t2f (hFnd fiber)
    (fun t ht => List.count_eq_one_of_mem (hTnd t) ((hbij fiber t).mpr ht))]
  have hT1nd : ∀ t, ((fun t => if t ∈ s.f2t fiber
      then (s.t2f t).filter (fun x => x ≠ fiber) else s.t2f t) t).Nodup := by
    intro t
    dsimp only
    split
    · exact (hTnd t).filter _
    · exact hTnd t
  have hF1nd : ∀ f, ((upd s.f2t fiber []) f).Nodup := by
    intro f
    rw [upd_apply]
    split
    · exact List.nodup_nil
    · exact hFnd f
  have hbij1 : ∀ f t, f ∈ ((fun t => if t ∈ s.f2t fiber
      then (s.t2f t).filter (fun x => x ≠ fiber) else s.t2f t) t) ↔
      t ∈ (upd s.f2t fiber []) f := by
    intro f t
    dsimp only
    rw [upd_apply]
    by_cases hff : f = fiber
    · rw [if_pos hff, hff]
      simp only [List.not_mem_nil, iff_false]
      split
      · rw [List.mem_filter]
        rintro ⟨-, h⟩
        simp at h
      · rename_i ht
        intro h
        exact ht ((hbij fiber t).mp h)
    · rw [if_neg hff]
      split
      · rw [List.mem_filter]
        constructor
        · rintro ⟨h, -⟩
          exact (hbij f t).mp h
        · intro h
          exact ⟨(hbij f t).mpr h, by simpa using hff⟩
      · exact hbij f t
  have hph2 := phase2_spec
    ((tgt2raster tgt 100 100).query (tgt.getD itgt default).pos colldist)
    (upd s.f2t fiber [])
    (fun t => if t ∈ s.f2t fiber then (s.t2f t).filter (fun x => x ≠ fiber) else s.t2f t)
    (tgt_query_nodup tgt (by norm_num [colldist]) _) hF1nd hT1nd hbij1
  refine Eq.trans (congrArg
    (fun z : Option ((ℕ → List ℕ) × (ℕ → List ℕ)) =>
      z >>= fun st => pure (MapState.mk st.1 st.2)) hph2) ?_
  rfl

theorem cleanF_sublist (s : MapState) (fiber : ℕ) (tmp : List ℕ) (f : ℕ) :
    List.Sublist (cleanF s fiber tmp f) (s.f2t f) := by
  unfold cleanF
  rw [upd_apply]
  split
  · exact List.nil_sublist _
  · exact List.filter_sublist _

theorem cleanT_sublist (s : MapState) (fiber : ℕ) (tmp : List ℕ) (t : ℕ) :
    List.Sublist (cleanT s fiber tmp t) (s.t2f t) := by
  unfold cleanT
  split
  · exact List.nil_sublist _
  · split
    · exact List.filter_sublist _
    · exact List.Sublist.refl _

theorem cleanF_mem (s : MapState) (fiber : ℕ) (tmp : List ℕ) (f j : ℕ) :
    j ∈ cleanF s fiber tmp f ↔ f ≠ fiber ∧ j ∈ s.f2t f ∧ j ∉ tmp := by
  unfold cleanF
  rw [List.mem_filter, upd_apply]
  by_cases hff : f = fiber
  · rw [if_pos hff]
    simp [hff]
  · rw [if_neg hff]
    simp [hff]

theorem clean_bij (s : MapState) (fiber : ℕ) (tmp : List ℕ)
    (hbij : ∀ f t, f ∈ s.t2f t ↔ t ∈ s.f2t f) (i j : ℕ) :
    i ∈ cleanT s fiber tmp j ↔ j ∈ cleanF s fiber tmp i := by
  rw [cleanF_mem]
  unfold cleanT
  by_cases hj : j ∈ tmp
  · rw [if_pos hj]
    simp [hj]
  · rw [if_neg hj]
    by_cases hjf : j ∈ s.f2t fiber
    · rw [if_pos hjf, List.mem_filter]
      simp only [decide_eq_true_eq]
      constructor
      · rintro ⟨h1, h2⟩
        exact ⟨h2, (hbij i j).mp h1, hj⟩
      · rintro ⟨h1, h2, -⟩
        exact ⟨(hbij i j).mpr h2, h1⟩
    · rw [if_neg hjf]
      constructor
      · intro h
        have hif : i ≠ fiber := by
          intro hEq
          exact hjf ((hbij fiber j).mp (hEq ▸ h))
        exact ⟨hif, (hbij i j).mp h, hj⟩
      · rintro ⟨-, h, -⟩
        exact (hbij i j).mpr h

/-- The full effect of one successful `cleanup` call starting from the
invariant: the result keeps the invariant with the committed target and fiber
appended, shrinks every neighbour list, empties the committed fiber's and
target's lists, and the commits are fresh and pairwise separated. -/
theorem cleanup_step (tgt : List (Target ℝ)) (s : MapState) (cT cF : List ℕ)
    (hinv : MapInv tgt cT cF s) (fiber itgt : ℕ) (hmem : itgt ∈ s.f2t fiber) :
    ∃ s1, cleanup tgt (tgt2raster tgt 100 100) s fiber itgt = some s1 ∧
      MapInv tgt (cT ++ [itgt]) (cF ++ [fiber]) s1 ∧
      (∀ f, List.Sublist (s1.f2t f) (s.f2t f)) ∧
      (∀ t, List.Sublist (s1.t2f t) (s.t2f t)) ∧
      s1.f2t fiber = [] ∧ s1.t2f itgt = [] ∧
      itgt ∉ cT ∧ fiber ∉ cF ∧ itgt < tgt.length ∧ fiber < nfiber ∧
      (∀ t ∈ cT, colldist * colldist <
        (tgt.getD t default).pos.dsq (tgt.getD itgt default).pos) := by
  obtain ⟨hBound, hFnd, hTnd, hbij, hfar, hcfe⟩ := hinv
  obtain ⟨hfib, hlen⟩ := hBound fiber itgt hmem
  have hitmp : itgt ∈ (tgt2raster tgt 100 100).query (tgt.getD itgt default).pos colldist := by
    rw [mem_tgt_query tgt (by norm_num [colldist]) _ itgt]
    refine ⟨hlen, ?_⟩
    rw [dsq_self]
    norm_num [colldist]
  refine ⟨_, cleanup_eq tgt s fiber itgt hFnd hTnd hbij, ?_, ?_, ?_, ?_, ?_, ?_, ?_,
    hlen, hfib, ?_⟩
  · refine ⟨?_, ?_, ?_, ?_, ?_, ?_⟩
    · intro i j hj
      obtain ⟨-, hjm, -⟩ := (cleanF_mem s fiber _ i j).mp hj
      exact hBound i j hjm
    · intro f
      exact (hFnd f).sublist (cleanF_sublist s fiber _ f)
    · intro t
      exact (hTnd t).sublist (cleanT_sublist s fiber _ t)
    · intro i j
      exact clean_bij s fiber _ hbij i j
    · intro i j hj t ht
      obtain ⟨-, hjm, hjt⟩ := (cleanF_mem s fiber _ i j).mp hj
      rcases List.mem_append.mp ht with ht | ht
      · exact hfar i j hjm t ht
      · rw [List.mem_singleton] at ht
        subst ht
        obtain ⟨-, hjl⟩ := hBound i j hjm
        by_contra hnotlt
        apply hjt
        rw [mem_tgt_query tgt (by norm_num [colldist]) _ j]
        refine ⟨hjl, ?_⟩
        rw [dsq_comm] at hnotlt
        exact le_of_not_lt hnotlt
    · intro f hf
      show cleanF s fiber _ f = []
      unfold cleanF
      rw [upd_apply]
      rcases List.mem_append.mp hf with hf | hf
      · by_cases hff : f = fiber
        · rw [if_pos hff]
          rfl
        · rw [if_neg hff, hcfe f hf]
          rfl
      · rw [List.mem_singleton] at hf
        rw [if_pos hf]
        rfl
  · intro f
    exact cleanF_sublist s fiber _ f
  · intro t
    exact cleanT_sublist s fiber _ t
  · show cleanF s fiber _ fiber = []
    unfold cleanF
    rw [upd_apply, if_pos rfl]
    rfl
  · show cleanT s fiber _ itgt = []
    unfold cleanT
    rw [if_pos hitmp]
  · intro h
    have := hfar fiber itgt hmem itgt h
    rw [dsq_self] at this
    norm_num [colldist] at this
  · intro h
    rw [hcfe fiber h] at hmem
    exact absurd hmem (List.not_mem_nil _)
  · intro t ht
    have := hfar fiber itgt hmem t ht
    rw [dsq_comm]
    exact this

/-- Emptying a non-empty `f2t` list while shrinking all others strictly
decreases the total `f2t` size. -/
theorem sumF_lt (s s1 : MapState) (fiber : ℕ)
    (hsub : ∀ f, List.Sublist (s1.f2t f) (s.f2t f))
    (hempty : s1.f2t fiber = []) (hne : s.f2t fiber ≠ []) (hfib : fiber < nfiber) :
    sumF s1 < sumF s := by
  unfold sumF
  refine List.sum_lt_sum _ _ (fun i _ => (hsub i).length_le) ⟨fiber,
    List.mem_range.mpr hfib, ?_⟩
  rw [hempty]
  exact List.length_pos.mpr hne

/-- Emptying a non-empty `t2f` list while shrinking all others strictly
decreases the total `t2f` size. -/
theorem sumT_lt (len : ℕ) (s s1 : MapState) (itgt : ℕ)
    (hsub : ∀ t, List.Sublist (s1.t2f t) (s.t2f t))
    (hempty : s1.t2f itgt = []) (hne : s.t2f itgt ≠ []) (hlen : itgt < len) :
    sumT len s1 < sumT len s := by
  unfold sumT
  refine List.sum_lt_sum _ _ (fun i _ => (hsub i).length_le) ⟨itgt,
    List.mem_range.mpr hlen, ?_⟩
  rw [hempty]
  exact List.length_pos.mpr hne

theorem getD0_mem {l : List ℕ} (h : l ≠ []) : l.getD 0 0 ∈ l := by
  cases l with
  | nil => exact absurd rfl h
  | cons a t => exact List.mem_cons_self _ _

/-- The (buggy but well-defined) `maxpri_in_fiber` selection always returns a
member of the fiber's neighbour list when that list is non-empty. -/
theorem maxpri_mem (fiber : ℕ) (tgt : List (Target K)) (f2t : ℕ → List ℕ)
    (h : f2t fiber ≠ []) : maxpri_in_fiber fiber tgt f2t ∈ f2t fiber := by
  rw [maxpri_in_fiber_eq_head]
  exact getD0_mem h

/-- A non-`-1` result of the Draining fiber scan is a valid fiber with a
non-empty neighbour list. -/
theorem drainSelect_spec (s : MapState) (bound : ℕ) :
    (drainSelect s bound).1 ≠ -1 →
    (drainSelect s bound).1.toNat < nfiber ∧
    s.f2t ((drainSelect s bound).1.toNat) ≠ [] := by
  unfold drainSelect
  suffices h : ∀ (L : List ℕ) (p : ℤ × ℕ),
      (∀ i ∈ L, i < nfiber) →
      (p.1 ≠ -1 → p.1.toNat < nfiber ∧ s.f2t p.1.toNat ≠ []) →
      ((L.foldl (fun p i =>
          if (s.f2t i).length < p.2 ∧ 0 < (s.f2t i).length then ((i : ℤ), (s.f2t i).length)
          else p) p).1 ≠ -1 →
        (L.foldl (fun p i =>
          if (s.f2t i).length < p.2 ∧ 0 < (s.f2t i).length then ((i : ℤ), (s.f2t i).length)
          else p) p).1.toNat < nfiber ∧
        s.f2t ((L.foldl (fun p i =>
          if (s.f2t i).length < p.2 ∧ 0 < (s.f2t i).length then ((i : ℤ), (s.f2t i).length)
          else p) p).1.toNat) ≠ []) by
    exact h (List.range nfiber) (-1, bound) (fun i hi => List.mem_range.mp hi)
      (fun hc => absurd rfl hc)
  intro L
  induction L with
  | nil =>
    intro p _ hp
    exact hp
  | cons a L2 ih =>
    intro p hL hp
    rw [List.foldl_cons]
    refine ih _ (fun i hi => hL i (List.mem_cons_of_mem _ hi)) ?_
    dsimp only
    split
    · rename_i hcond
      intro _
      constructor
      · simpa using hL a (List.mem_cons_self _ _)
      · simp only [Int.toNat_natCast]
        intro hnil
        rw [hnil] at hcond
        simp at hcond
    · exact hp

/-- The `NewAssigner` fiber scan returns a member of the target's `t2f` list
when that list is non-empty. -/
theorem newSelectFiber_mem (s : MapState) (l : List ℕ) (h : l ≠ []) :
    newSelectFiber s l ∈ l := by
  unfold newSelectFiber
  suffices hst : ∀ (L : List ℕ) (st : ℕ × ℕ), (∀ i ∈ L, i < l.length) →
      st.1 < l.length →
      (L.foldl (fun st i =>
        if (s.f2t (l.getD i 0)).length < st.2 then (i, (s.f2t (l.getD i 0)).length)
        else st) st).1 < l.length by
    apply getD_mem_of_lt
    apply hst
    · intro i hi
      rcases List.mem_range'_1.mp hi with ⟨h1, h2⟩
      omega
    · exact List.length_pos.mpr h
  intro L
  induction L with
  | nil =>
    intro st _ hst
    exact hst
  | cons a L2 ih =>
    intro st hL h0
    rw [List.foldl_cons]
    refine ih _ (fun i hi => hL i (List.mem_cons_of_mem _ hi)) ?_
    dsimp only
    split
    · exact hL a (List.mem_cons_self _ _)
    · exact h0

theorem outProps_nil (tgt : List (Target ℝ)) : OutProps tgt ([], []) :=
  ⟨rfl, List.nodup_nil, List.nodup_nil, List.Pairwise.nil⟩

/-- Appending a fresh separated commit preserves the output contract. -/
theorem outProps_append (tgt : List (Target ℝ)) {cT cF : List ℕ} {itgt fiber : ℕ}
    (hout : OutProps tgt (cT, cF)) (hnT : itgt ∉ cT) (hnF : fiber ∉ cF)
    (hsep : ∀ t ∈ cT, colldist * colldist <
      (tgt.getD t default).pos.dsq (tgt.getD itgt default).pos) :
    OutProps tgt (cT ++ [itgt], cF ++ [fiber]) := by
  obtain ⟨h1, h2, h3, h4⟩ := hout
  dsimp only at h1 h2 h3 h4
  refine ⟨?_, ?_, ?_, ?_⟩
  · dsimp only
    simp only [List.length_append]
    rw [h1]
    rfl
  · refine h2.append (List.nodup_singleton _) ?_
    intro x hx hy
    rw [List.mem_singleton] at hy
    subst hy
    exact hnT hx
  · refine h3.append (List.nodup_singleton _) ?_
    intro x hx hy
    rw [List.mem_singleton] at hy
    subst hy
    exact hnF hx
  · rw [List.pairwise_append]
    refine ⟨h4, List.pairwise_singleton _ _, ?_⟩
    intro a ha b hb
    rw [List.mem_singleton] at hb
    subst hb
    exact hsep a ha

/-- Invariant induction over the `NaiveAssigner` fold: it never fails and its
accumulated commits keep satisfying the output contract. -/
theorem naive_master (tgt : List (Target ℝ)) :
    ∀ (fl : List ℕ) (s : MapState) (cT cF : List ℕ),
      MapInv tgt cT cF s → OutProps tgt (cT, cF) →
      ∃ s1 cT1 cF1,
        fl.foldlM
          (fun (st : MapState × List ℕ × List ℕ) fiber =>
            if st.1.f2t fiber = [] then some st
            else
              let itgt := maxpri_in_fiber fiber tgt st.1.f2t
              (cleanup tgt (tgt2raster tgt 100 100) st.1 fiber itgt).map
                (fun s1 => (s1, st.2.1 ++ [itgt], st.2.2 ++ [fiber])))
          (s, cT, cF) = some (s1, cT1, cF1) ∧
        MapInv tgt cT1 cF1 s1 ∧ OutProps tgt (cT1, cF1) := by
  intro fl
  induction fl with
  | nil =>
    intro s cT cF hinv hout
    exact ⟨s, cT, cF, rfl, hinv, hout⟩
  | cons f fl2 ih =>
    intro s cT cF hinv hout
    rw [List.foldlM_cons]
    dsimp only
    by_cases hf : s.f2t f = []
    · rw [if_pos hf]
      obtain ⟨s1, cT1, cF1, heq, hi, ho⟩ := ih s cT cF hinv hout
      exact ⟨s1, cT1, cF1, heq, hi, ho⟩
    · rw [if_neg hf]
      have hmem := maxpri_mem f tgt s.f2t hf
      obtain ⟨s1, hclean, hinv1, -, -, -, -, hnT, hnF, -, -, hsep⟩ :=
        cleanup_step tgt s cT cF hinv f (maxpri_in_fiber f tgt s.f2t) hmem
      rw [hclean, Option.map_some']
      obtain ⟨s2, cT2, cF2, heq, hi, ho⟩ := ih s1 _ _ hinv1
        (outProps_append tgt hout hnT hnF hsep)
      exact ⟨s2, cT2, cF2, heq, hi, ho⟩

/-- `NaiveAssigner::assign` always succeeds and its output satisfies the
contract. -/
theorem naiveAssign_total (tgt : List (Target ℝ)) :
    ∃ out, naiveAssign tgt = some out ∧ OutProps tgt out := by
  obtain ⟨s1, cT1, cF1, heq, -, hout⟩ := naive_master tgt (List.range nfiber)
    (calcMappings tgt (tgt2raster tgt 100 100)) [] []
    (calcMappings_inv tgt) (outProps_nil tgt)
  refine ⟨(cT1, cF1), ?_, hout⟩
  unfold naiveAssign
  dsimp only
  rw [heq, Option.map_some']

/-- Invariant induction over the `DrainingAssigner` loop: with fuel exceeding
the total `f2t` size it terminates with a contract-satisfying output. -/
theorem drain_master (tgt : List (Target ℝ)) (maxtgt : ℕ) :
    ∀ (fuel : ℕ) (s : MapState) (cT cF : List ℕ),
      MapInv tgt cT cF s → OutProps tgt (cT, cF) → sumF s < fuel →
      ∃ out, drainLoop tgt (tgt2raster tgt 100 100) maxtgt fuel s cT cF = some out ∧
        OutProps tgt out := by
  intro fuel
  induction fuel with
  | zero =>
    intro s cT cF _ _ h
    exact absurd h (by omega)
  | succ fuel ih =>
    intro s cT cF hinv hout hfuel
    rw [drainLoop]
    dsimp only
    by_cases hsel : (drainSelect s (maxtgt + 1)).1 = -1
    · rw [if_pos hsel]
      exact ⟨(cT, cF), rfl, hout⟩
    · rw [if_neg hsel]
      obtain ⟨hfib, hne⟩ := drainSelect_spec s (maxtgt + 1) hsel
      have hmem := maxpri_mem ((drainSelect s (maxtgt + 1)).1.toNat) tgt s.f2t hne
      obtain ⟨s1, hclean, hinv1, hsubF, -, hefib, -, hnT, hnF, -, -, hsep⟩ :=
        cleanup_step tgt s cT cF hinv ((drainSelect s (maxtgt + 1)).1.toNat)
          (maxpri_in_fiber ((drainSelect s (maxtgt + 1)).1.toNat) tgt s.f2t) hmem
      rw [hclean]
      have hdec := sumF_lt s s1 ((drainSelect s (maxtgt + 1)).1.toNat) hsubF hefib hne hfib
      exact ih s1 _ _ hinv1 (outProps_append tgt hout hnT hnF hsep) (by omega)

/-- `DrainingAssigner::assign` always succeeds and its output satisfies the
contract. -/
theorem drainingAssign_total (tgt : List (Target ℝ)) :
    ∃ out, drainingAssign tgt = some out ∧ OutProps tgt out := by
  obtain ⟨out, heq, hout⟩ := drain_master tgt
    (maxtgtOf (calcMappings tgt (tgt2raster tgt 100 100)))
    (sumF (calcMappings tgt (tgt2raster tgt 100 100)) + 1)
    (calcMappings tgt (tgt2raster tgt 100 100)) [] []
    (calcMappings_inv tgt) (outProps_nil tgt) (by omega)
  refine ⟨out, ?_, hout⟩
  unfold drainingAssign
  dsimp only
  exact heq

theorem filter_length_mono {p q : ℕ → Bool} :
    ∀ l : List ℕ, (∀ a ∈ l, p a = true → q a = true) →
      (l.filter p).length ≤ (l.filter q).length := by
  intro l
  induction l with
  | nil =>
    intro _
    exact le_refl _
  | cons a t ih =>
    intro h
    rw [List.filter_cons, List.filter_cons]
    have iht := ih (fun x hx => h x (List.mem_cons_of_mem _ hx))
    by_cases hpa : p a = true
    · rw [if_pos hpa, if_pos (h a (List.mem_cons_self _ _) hpa)]
      simp only [List.length_cons]
      omega
    · rw [if_neg hpa]
      by_cases hqa : q a = true
      · rw [if_pos hqa]
        simp only [List.length_cons]
        omega
      · rw [if_neg hqa]
        exact iht

theorem filter_length_lt {p q : ℕ → Bool} :
    ∀ l : List ℕ, (∀ a ∈ l, p a = true → q a = true) →
      ∀ a0 ∈ l, p a0 = false → q a0 = true →
      (l.filter p).length < (l.filter q).length := by
  intro l
  induction l with
  | nil =>
    intro _ a0 h
    exact absurd h (List.not_mem_nil a0)
  | cons a t ih =>
    intro h a0 ha0 hp0 hq0
    rw [List.filter_cons, List.filter_cons]
    rcases List.mem_cons.mp ha0 with rfl | ha0t
    · rw [if_neg (by rw [hp0]; exact Bool.false_ne_true), if_pos hq0]
      have := filter_length_mono t (fun x hx => h x (List.mem_cons_of_mem _ hx))
      simp only [List.length_cons]
      omega
    · have iht := ih (fun x hx => h x (List.mem_cons_of_mem _ hx)) a0 ha0t hp0 hq0
      by_cases hpa : p a = true
      · rw [if_pos hpa, if_pos (h a (List.mem_cons_self _ _) hpa)]
        simp only [List.length_cons]
        omega
      · rw [if_neg hpa]
        by_cases hqa : q a = true
        · rw [if_pos hqa]
          simp only [List.length_cons]
          omega
        · rw [if_neg hqa]
          exact iht

/-- The `fix_priority` fold only calls `set_priority` at valid element ids,
so the queue stays coherent and heap-ordered with its size and every
catalog-priority component unchanged. -/
theorem fixp_fold_spec (tgt : List (Target ℝ)) (t2f : ℕ → List ℕ) (itgt : ℕ) :
    ∀ (L : List ℕ) (pq : pqueue ℝ), (∀ j ∈ L, j < tgt.length) →
      pq.Coh → pq.HeapAt 1 → pq.n = tgt.length →
      ((L.foldl (fun q j =>
          if t2f j ≠ [] ∨ (q.priority j).prox ≠ 0 then
            q.set_priority
              ⟨(q.priority j).prox - (tgt.getD j default).time *
                (tgt.getD itgt default).time *
                kernelfunc ((tgt.getD itgt default).pos.dsq (tgt.getD j default).pos),
               (q.priority j).pri⟩ j
          else q) pq).Coh ∧
       (L.foldl (fun q j =>
          if t2f j ≠ [] ∨ (q.priority j).prox ≠ 0 then
            q.set_priority
              ⟨(q.priority j).prox - (tgt.getD j default).time *
                (tgt.getD itgt default).time *
                kernelfunc ((tgt.getD itgt default).pos.dsq (tgt.getD j default).pos),
               (q.priority j).pri⟩ j
          else q) pq).HeapAt 1 ∧
       (L.foldl (fun q j =>
          if t2f j ≠ [] ∨ (q.priority j).prox ≠ 0 then
            q.set_priority
              ⟨(q.priority j).prox - (tgt.getD j default).time *
                (tgt.getD itgt default).time *
                kernelfunc ((tgt.getD itgt default).pos.dsq (tgt.getD j default).pos),
               (q.priority j).pri⟩ j
          else q) pq).n = tgt.length ∧
       (∀ m, (((L.foldl (fun q j =>
          if t2f j ≠ [] ∨ (q.priority j).prox ≠ 0 then
            q.set_priority
              ⟨(q.priority j).prox - (tgt.getD j default).time *
                (tgt.getD itgt default).time *
                kernelfunc ((tgt.getD itgt default).pos.dsq (tgt.getD j default).pos),
               (q.priority j).pri⟩ j
          else q) pq).nodes m).pri).pri = ((pq.nodes m).pri).pri)) := by
  intro L
  induction L with
  | nil =>
    intro pq _ hcoh hheap hn
    exact ⟨hcoh, hheap, hn, fun m => rfl⟩
  | cons j L2 ih =>
    intro pq hL hcoh hheap hn
    rw [List.foldl_cons]
    by_cases hc : t2f j ≠ [] ∨ (pq.priority j).prox ≠ 0
    · rw [if_pos hc]
      obtain ⟨sC, sH, sP, sN⟩ := set_priority_spec pq
        ⟨(pq.priority j).prox - (tgt.getD j default).time *
          (tgt.getD itgt default).time *
          kernelfunc ((tgt.getD itgt default).pos.dsq (tgt.getD j default).pos),
         (pq.priority j).pri⟩ j hcoh hheap
        (by rw [hn]; exact hL j (List.mem_cons_self _ _))
      obtain ⟨c2, h2, n2, p2⟩ := ih _ (fun x hx => hL x (List.mem_cons_of_mem _ hx))
        sC sH (sN.trans hn)
      refine ⟨c2, h2, n2, ?_⟩
      intro m
      rw [p2 m, sP m]
      split
      · rename_i hm
        rw [hm]
        rfl
      · rfl
    · rw [if_neg hc]
      exact ih pq (fun x hx => hL x (List.mem_cons_of_mem _ hx)) hcoh hheap hn

theorem fix_priority_spec (tgt : List (Target ℝ)) (t2f : ℕ → List ℕ) (itgt : ℕ)
    (pq : pqueue ℝ) (hcoh : pq.Coh) (hheap : pq.HeapAt 1) (hn : pq.n = tgt.length) :
    (fix_priority tgt t2f (tgt2raster tgt 100 100) itgt pq).Coh ∧
    (fix_priority tgt t2f (tgt2raster tgt 100 100) itgt pq).HeapAt 1 ∧
    (fix_priority tgt t2f (tgt2raster tgt 100 100) itgt pq).n = tgt.length ∧
    (∀ m, (((fix_priority tgt t2f (tgt2raster tgt 100 100) itgt pq).nodes m).pri).pri =
      ((pq.nodes m).pri).pri) := by
  unfold fix_priority
  exact fixp_fold_spec tgt t2f itgt _ pq
    (fun x hx => ((mem_tgt_query tgt (by norm_num [r_kernel]) _ x).mp hx).1)
    hcoh hheap hn

theorem calc_pri_spec (tgt : List (Target ℝ)) (t2f : ℕ → List ℕ) (raster : fpraster ℝ) :
    (calc_pri tgt t2f raster).Coh ∧ (calc_pri tgt t2f raster).HeapAt 1 ∧
    (calc_pri tgt t2f raster).n = tgt.length := by
  unfold calc_pri
  refine ⟨(build_spec _).1, (build_spec _).2.1, ?_⟩
  rw [(build_spec _).2.2.2, List.length_map, List.length_range]

/-- Invariant induction over the `NewAssigner` loop: with fuel exceeding the
total `t2f` size plus the number of non-sentinel queue entries it terminates
with a contract-satisfying output. -/
theorem new_master (tgt : List (Target ℝ)) (hne : tgt ≠ []) :
    ∀ (fuel : ℕ) (s : MapState) (pq : pqueue ℝ) (cT cF : List ℕ),
      MapInv tgt cT cF s → OutProps tgt (cT, cF) →
      pq.Coh → pq.HeapAt 1 → pq.n = tgt.length →
      sumT tgt.length s + nonSent pq tgt.length < fuel →
      ∃ out, newLoop tgt (tgt2raster tgt 100 100) fuel s pq cT cF = some out ∧
        OutProps tgt out := by
  intro fuel
  induction fuel with
  | zero =>
    intro s pq cT cF _ _ _ _ _ h
    exact absurd h (by omega)
  | succ fuel ih =>
    intro s pq cT cF hinv hout hcoh hheap hn hfuel
    rw [newLoop]
    dsimp only
    by_cases hsent : pq.top_priority.pri = 2 ^ 30
    · rw [if_pos hsent]
      exact ⟨(cT, cF), rfl, hout⟩
    · rw [if_neg hsent]
      have htop : pq.top < tgt.length := by
        rw [← hn]
        exact ((hcoh.1) 1 (le_refl _) (by rw [hn]; exact List.length_pos.mpr hne)).1
      by_cases hemp : s.t2f pq.top = []
      · rw [if_pos hemp]
        obtain ⟨sC, sH, sP, sN⟩ := set_priority_spec pq ⟨0, 2 ^ 30⟩ pq.top hcoh hheap
          (by rw [hn]; exact htop)
        refine ih s _ cT cF hinv hout sC sH (sN.trans hn) ?_
        have hdec : nonSent (pq.set_priority ⟨0, 2 ^ 30⟩ pq.top) tgt.length <
            nonSent pq tgt.length := by
          unfold nonSent
          apply filter_length_lt _ ?_ pq.top (List.mem_range.mpr htop) ?_ ?_
          · intro a _ hpa
            by_cases hat : a = pq.top
            · exfalso
              rw [decide_eq_true_eq, sP a, if_pos hat] at hpa
              exact hpa rfl
            · rw [decide_eq_true_eq, sP a, if_neg hat] at hpa
              rw [decide_eq_true_eq]
              exact hpa
          · rw [decide_eq_false_iff_not, sP pq.top, if_pos rfl]
            intro hcontra
            exact hcontra rfl
          · rw [decide_eq_true_eq]
            exact hsent
        omega
      · rw [if_neg hemp]
        have hfibmem := newSelectFiber_mem s (s.t2f pq.top) hemp
        have hmem : pq.top ∈ s.f2t (newSelectFiber s (s.t2f pq.top)) :=
          (hinv.bij (newSelectFiber s (s.t2f pq.top)) pq.top).mp hfibmem
        obtain ⟨s1, hclean, hinv1, -, hsubT, -, hetgt, hnT, hnF, -, -, hsep⟩ :=
          cleanup_step tgt s cT cF hinv (newSelectFiber s (s.t2f pq.top)) pq.top hmem
        rw [hclean]
        obtain ⟨fC, fH, fN, fP⟩ := fix_priority_spec tgt s1.t2f pq.top pq hcoh hheap hn
        refine ih s1 _ _ _ hinv1 (outProps_append tgt hout hnT hnF hsep) fC fH fN ?_
        have hdec := sumT_lt tgt.length s s1 pq.top hsubT hetgt hemp htop
        have hns : nonSent (fix_priority tgt s1.t2f (tgt2raster tgt 100 100) pq.top pq)
            tgt.length = nonSent pq tgt.length := by
          unfold nonSent
          congr 1
          apply List.filter_congr
          intro m _
          rw [fP m]
        omega

/-- `NewAssigner::assign` succeeds on every non-empty target list and its
output satisfies the contract. -/
theorem newAssign_total (tgt : List (Target ℝ)) (hne : tgt ≠ []) :
    ∃ out, newAssign tgt = some out ∧ OutProps tgt out := by
  obtain ⟨c, h, n⟩ := calc_pri_spec tgt
    (calcMappings tgt (tgt2raster tgt 100 100)).t2f (tgt2raster tgt 100 100)
  have hmeas : sumT tgt.length (calcMappings tgt (tgt2raster tgt 100 100)) +
      nonSent (calc_pri tgt (calcMappings tgt (tgt2raster tgt 100 100)).t2f
        (tgt2raster tgt 100 100)) tgt.length <
      sumT tgt.length (calcMappings tgt (tgt2raster tgt 100 100)) + tgt.length + 1 := by
    have hb : nonSent (calc_pri tgt (calcMappings tgt (tgt2raster tgt 100 100)).t2f
        (tgt2raster tgt 100 100)) tgt.length ≤ tgt.length := by
      unfold nonSent
      calc ((List.range tgt.length).filter _).length ≤ (List.range tgt.length).length :=
            List.length_filter_le _ _
        _ = tgt.length := List.length_range _
    omega
  obtain ⟨out, heq, hout⟩ := new_master tgt hne
    (sumT tgt.length (calcMappings tgt (tgt2raster tgt 100 100)) + tgt.length + 1)
    (calcMappings tgt (tgt2raster tgt 100 100))
    (calc_pri tgt (calcMappings tgt (tgt2raster tgt 100 100)).t2f
      (tgt2raster tgt 100 100))
    [] [] (calcMappings_inv tgt) (outProps_nil tgt) c h n hmeas
  refine ⟨out, ?_, hout⟩
  unfold newAssign
  dsimp only
  exact heq

/-- The fiber position for id 0 (field 0, module 0, cobra 0). -/
theorem id2fiberpos_0 : id2fiberpos 0 = ⟨-8 * vspace, 4⟩ := by
  simp only [id2fiberpos]
  norm_num
  ring

/-- C7: for each of the three assignment strategies (Naive, Draining, New)
on a non-empty target list, the returned `tid`/`fid` vectors have equal
length, no fiber and no target occurs twice, and no two targets committed in
the same call lie within `COLLDIST` of each other (strict, on squared
distances). -/
theorem C7_strategy_output_contract (tgt : List (Target ℝ)) (hne : tgt ≠ []) :
    (naiveAssign tgt).elim True (OutProps tgt) ∧
    (drainingAssign tgt).elim True (OutProps tgt) ∧
    (newAssign tgt).elim True (OutProps tgt) := by
  obtain ⟨o1, he1, ho1⟩ := naiveAssign_total tgt
  obtain ⟨o2, he2, ho2⟩ := drainingAssign_total tgt
  obtain ⟨o3, he3, ho3⟩ := newAssign_total tgt hne
  rw [he1, he2, he3]
  exact ⟨ho1, ho2, ho3⟩

/-- C7 witness: the theorem applied at a concrete one-target list. -/
theorem C7_strategy_output_contract_witness :
    (([({ pos := ⟨-8 * vspace, 2⟩, time := 1, pri := 1, id := 0 } : Target ℝ)] :
        List (Target ℝ)) ≠ []) ∧
    ((naiveAssign [({ pos := ⟨-8 * vspace, 2⟩, time := 1, pri := 1, id := 0 } : Target ℝ)]).elim
        True (OutProps [({ pos := ⟨-8 * vspace, 2⟩, time := 1, pri := 1, id := 0 } : Target ℝ)]) ∧
     (drainingAssign
        [({ pos := ⟨-8 * vspace, 2⟩, time := 1, pri := 1, id := 0 } : Target ℝ)]).elim
        True (OutProps [({ pos := ⟨-8 * vspace, 2⟩, time := 1, pri := 1, id := 0 } : Target ℝ)]) ∧
     (newAssign [({ pos := ⟨-8 * vspace, 2⟩, time := 1, pri := 1, id := 0 } : Target ℝ)]).elim
        True (OutProps
          [({ pos := ⟨-8 * vspace, 2⟩, time := 1, pri := 1, id := 0 } : Target ℝ)])) :=
  ⟨by simp, C7_strategy_output_contract _ (by simp)⟩

/-- C8: starting from `calcMappings` and mutating only through `cleanup`,
every `stripout` call finds exactly one occurrence (no assertion can fail):
`cleanup` succeeds under the invariant and re-establishes the bijection I1;
`calcMappings` itself establishes I1; and all three strategies run to
completion without a failure. -/
theorem C8_stripout_bijection_safety :
    (∀ (tgt : List (Target ℝ)) (s : MapState) (cT cF : List ℕ) (fiber itgt : ℕ),
      MapInv tgt cT cF s → itgt ∈ s.f2t fiber →
      ∃ s1, cleanup tgt (tgt2raster tgt 100 100) s fiber itgt = some s1 ∧
        (∀ i j, i ∈ s1.t2f j ↔ j ∈ s1.f2t i)) ∧
    (∀ (tgt : List (Target ℝ)) (i j : ℕ),
      i ∈ (calcMappings tgt (tgt2raster tgt 100 100)).t2f j ↔
        i < nfiber ∧ j ∈ (calcMappings tgt (tgt2raster tgt 100 100)).f2t i) ∧
    (∀ tgt : List (Target ℝ), (naiveAssign tgt).isSome = true) ∧
    (∀ tgt : List (Target ℝ), (drainingAssign tgt).isSome = true) ∧
    (∀ tgt : List (Target ℝ), tgt ≠ [] → (newAssign tgt).isSome = true) := by
  refine ⟨?_, ?_, ?_, ?_, ?_⟩
  · intro tgt s cT cF fiber itgt hinv hmem
    obtain ⟨s1, hclean, hinv1, -⟩ := cleanup_step tgt s cT cF hinv fiber itgt hmem
    exact ⟨s1, hclean, hinv1.bij⟩
  · intro tgt i j
    exact calc_t2f_mem tgt i j
  · intro tgt
    obtain ⟨o, he, -⟩ := naiveAssign_total tgt
    rw [he]
    rfl
  · intro tgt
    obtain ⟨o, he, -⟩ := drainingAssign_total tgt
    rw [he]
    rfl
  · intro tgt h
    obtain ⟨o, he, -⟩ := newAssign_total tgt h
    rw [he]
    rfl

/-- C8 witness: the `cleanup` conjunct applied at a concrete one-target list
(the target sits 2 mm from fiber 0's center and clear of its dot) with the
invariant established by `calcMappings`, plus the strategy-totality conjunct
at the same list. -/
theorem C8_stripout_bijection_safety_witness :
    (∃ s1, cleanup [({ pos := ⟨-8 * vspace, 2⟩, time := 1, pri := 1, id := 0 } : Target ℝ)]
        (tgt2raster [({ pos := ⟨-8 * vspace, 2⟩, time := 1, pri := 1, id := 0 } : Target ℝ)]
          100 100)
        (calcMappings [({ pos := ⟨-8 * vspace, 2⟩, time := 1, pri := 1, id := 0 } : Target ℝ)]
          (tgt2raster
            [({ pos := ⟨-8 * vspace, 2⟩, time := 1, pri := 1, id := 0 } : Target ℝ)] 100 100))
        0 0 = some s1 ∧
      (∀ i j, i ∈ s1.t2f j ↔ j ∈ s1.f2t i)) ∧
    (newAssign [({ pos := ⟨-8 * vspace, 2⟩, time := 1, pri := 1, id := 0 } : Target ℝ)]).isSome
      = true :=
  ⟨C8_stripout_bijection_safety.1 _ _ [] [] 0 0 (calcMappings_inv _)
    ((calc_f2t_mem _ 0 0).mpr
      ⟨by norm_num [nfiber], by norm_num, by
        rw [id2fiberpos_0]
        simp only [vec2.dsq, rmax, List.getD]
        norm_num, by
        unfold id2dotpos
        rw [id2fiberpos_0]
        simp only [vec2.dsq, dotdist, List.getD]
        norm_num⟩),
   C8_stripout_bijection_safety.2.2.2.2 _ (by simp)⟩

end ETS



